import Mathlib

/-!
# Verification of esmlab weighted statistics (`esmlab/statistics.py`)

Shallow embedding of `src/esmlab/statistics.py`.

Modelling conventions:

* Numeric values are modelled exactly.  A cell of an array holds a `V`:
  a finite rational (`V.fin q`, exact arithmetic in place of IEEE floats,
  so "within floating tolerance" claims become exact equalities), one of
  the IEEE special values `V.pinf`, `V.ninf`, `V.nan` (the missing-value
  sentinel is NaN, as in the source), or `V.irr`.  `V.irr` marks a value
  the exact-rational model cannot represent (the result of `np.sqrt` of a
  rational that is not a perfect square); every arithmetic operation that
  touches `V.irr` conservatively returns `V.irr` ("unknown"), and no claim
  is settled on an input whose computation produces `V.irr`.

* An `xr.DataArray` is a `DataArray`: an ordered list of named axes
  (`dims`), an axis-length function (`len`), and the cell contents as a
  function of a name-keyed multi-index (`data`), plus descriptive
  `attrs`/`encoding`.  `shape` is derived as `dims.map len`, matching
  `x.shape`.  Binary operations broadcast by axis name with the left
  operand's axes first, exactly as xarray does; reductions sum over the
  named axes with NaN skipped (`skipna=True`, numpy `nansum`: NaN cells
  contribute 0, an all-NaN reduction yields 0).  Arithmetic and reductions
  drop `attrs`/`encoding` (xarray's default `keep_attrs=False`).
  The `esmlab_xr_set_options(arithmetic_join="exact")` decorator only
  constrains coordinate alignment; the model carries no coordinates, so
  it does not appear.

* Python exceptions become `Except Err`: the `ValueError` for an empty
  resolved dimension list is `Err.invalidDimension` (carrying `x.name`,
  which the source interpolates into the message), the two `assert`s on
  shapes are `Err.shapeMismatch`, and a failing
  `np.testing.assert_allclose(..., 1.0)` is `Err.normalizationError`
  (in the exact model the tolerance check becomes an exact comparison
  with 1).

* `warnings.warn` calls are collected in a `List String` returned next to
  the result; nested operator calls always pass explicit weights and
  therefore never warn, as in the source.
-/

/-- Exact model of an IEEE-754 double as used by the source: a finite
rational, plus or minus infinity, NaN, or `irr` (an irrational value the
exact model cannot represent, produced only by `np.sqrt`). -/
inductive V where
  | fin (q : ℚ)
  | pinf
  | ninf
  | nan
  | irr
  deriving DecidableEq, Repr

/-- NaN test; `irr` is a finite (if unknown) value, not NaN. -/
def V.isNan : V → Bool
  | .nan => true
  | _ => false

/-- numpy `nansum` treats a NaN summand as 0. -/
def V.denan : V → V
  | .nan => .fin 0
  | v => v

/-- IEEE negation. -/
def V.neg : V → V
  | .fin q => .fin (-q)
  | .pinf => .ninf
  | .ninf => .pinf
  | .nan => .nan
  | .irr => .irr

/-- IEEE addition (exact on finite values). -/
def V.add : V → V → V
  | .nan, _ => .nan
  | _, .nan => .nan
  | .pinf, .ninf => .nan
  | .ninf, .pinf => .nan
  | .pinf, _ => .pinf
  | _, .pinf => .pinf
  | .ninf, _ => .ninf
  | _, .ninf => .ninf
  | .irr, _ => .irr
  | _, .irr => .irr
  | .fin a, .fin b => .fin (a + b)

/-- IEEE subtraction. -/
def V.sub (a b : V) : V := V.add a (V.neg b)

/-- IEEE multiplication (`inf * 0 = NaN`). -/
def V.mul : V → V → V
  | .nan, _ => .nan
  | _, .nan => .nan
  | .irr, _ => .irr
  | _, .irr => .irr
  | .pinf, .pinf => .pinf
  | .pinf, .ninf => .ninf
  | .ninf, .pinf => .ninf
  | .ninf, .ninf => .pinf
  | .pinf, .fin b => if 0 < b then .pinf else if b < 0 then .ninf else .nan
  | .fin a, .pinf => if 0 < a then .pinf else if a < 0 then .ninf else .nan
  | .ninf, .fin b => if 0 < b then .ninf else if b < 0 then .pinf else .nan
  | .fin a, .ninf => if 0 < a then .ninf else if a < 0 then .pinf else .nan
  | .fin a, .fin b => .fin (a * b)

/-- IEEE division: `0/0 = NaN`, `q/0 = ±inf` (the rational zero is `+0`),
`inf/inf = NaN`, `q/inf = 0`. -/
def V.div : V → V → V
  | .nan, _ => .nan
  | _, .nan => .nan
  | .irr, _ => .irr
  | _, .irr => .irr
  | .pinf, .pinf => .nan
  | .pinf, .ninf => .nan
  | .ninf, .pinf => .nan
  | .ninf, .ninf => .nan
  | .pinf, .fin b => if b < 0 then .ninf else .pinf
  | .ninf, .fin b => if b < 0 then .pinf else .ninf
  | .fin _, .pinf => .fin 0
  | .fin _, .ninf => .fin 0
  | .fin a, .fin b =>
      if b = 0 then (if a = 0 then .nan else if 0 < a then .pinf else .ninf)
      else .fin (a / b)

/-- Exact square root of a natural number, if it is a perfect square
(structural search, so it evaluates inside the kernel). -/
def natSqrtExact (n : Nat) : Option Nat :=
  (List.range (n + 1)).find? (fun r => r * r == n)

/-- Exact square root of a nonnegative rational, if it is a perfect
square of a rational. -/
def ratSqrtExact (q : ℚ) : Option ℚ := do
  let a ← natSqrtExact q.num.natAbs
  let b ← natSqrtExact q.den
  pure ((a : ℚ) / (b : ℚ))

/-- `np.sqrt` on a cell: NaN for negative input (numpy emits a warning
and yields NaN), `inf` for `inf`; an irrational result is `V.irr`. -/
def V.sqrt : V → V
  | .nan => .nan
  | .pinf => .pinf
  | .ninf => .nan
  | .irr => .irr
  | .fin q =>
      if q < 0 then .nan
      else
        match ratSqrtExact q with
        | some r => .fin r
        | none => .irr

/-- A name-keyed multi-index: the coordinate of a cell along each named
axis. -/
def Ix : Type := String → Nat

/-- Model of `xr.DataArray`: ordered named axes, axis lengths, cell
contents as a function of a name-keyed multi-index, and descriptive
metadata.  `shape` is derived as `dims.map len`. -/
structure DataArray where
  name : String
  dims : List String
  len : String → Nat
  data : Ix → V
  attrs : List (String × String)
  encoding : List (String × String)

/-- `x.shape`: axis lengths in axis order. -/
def DataArray.shape (a : DataArray) : List Nat := a.dims.map a.len

/-- Point update of a multi-index at one axis name. -/
def updIx (ix : Ix) (d : String) (i : Nat) : Ix :=
  fun s => if s = d then i else ix s

/-- All completions of a base multi-index over the given axes (row-major
enumeration, first listed axis slowest). -/
def allIdx : List (String × Nat) → Ix → List Ix
  | [], ix => [ix]
  | (d, n) :: rest, ix =>
      ((List.range n).map (fun i => allIdx rest (updIx ix d i))).flatten

/-- The axes of an array paired with their lengths. -/
def DataArray.axes (a : DataArray) : List (String × Nat) :=
  a.dims.map (fun d => (d, a.len d))

/-- All cell values of an array, enumerated row-major from the zero
index. -/
def DataArray.cells (a : DataArray) : List V :=
  (allIdx a.axes (fun _ => 0)).map a.data

/-- numpy `nansum` of a list of cells: NaN summands count as 0, the empty
sum is 0, infinities follow IEEE addition. -/
def nansumL (l : List V) : V :=
  l.foldr (fun v acc => V.add (V.denan v) acc) (V.fin 0)

/-- Elementwise unary operation (xarray drops `attrs`/`encoding`). -/
def map1 (f : V → V) (a : DataArray) : DataArray where
  name := ""
  dims := a.dims
  len := a.len
  data := fun ix => f (a.data ix)
  attrs := []
  encoding := []

/-- Elementwise binary operation with xarray broadcasting by axis name:
the left operand's axes first, then the right operand's new axes.
`attrs`/`encoding` are dropped (xarray default `keep_attrs=False`). -/
def map2 (f : V → V → V) (a b : DataArray) : DataArray where
  name := ""
  dims := a.dims ++ b.dims.filter (fun d => ¬ a.dims.contains d)
  len := fun d => if a.dims.contains d then a.len d else b.len d
  data := fun ix => f (a.data ix) (b.data ix)
  attrs := []
  encoding := []

/-- `a.sum(ds)` with xarray's default `skipna=True`: reduce the named
axes, keeping the remaining axes in order. -/
def sumOver (ds : List String) (a : DataArray) : DataArray where
  name := ""
  dims := a.dims.filter (fun d => ¬ ds.contains d)
  len := a.len
  data := fun ix =>
    nansumL ((allIdx ((ds.filter (fun d => a.dims.contains d)).map
      (fun d => (d, a.len d))) ix).map a.data)
  attrs := []
  encoding := []

/-- A boolean labeled array (the result of `notnull` / `&`). -/
structure BoolArr where
  dims : List String
  len : String → Nat
  data : Ix → Bool

/-- `x.notnull()`. -/
def DataArray.notnull (a : DataArray) : BoolArr where
  dims := a.dims
  len := a.len
  data := fun ix => ¬ (a.data ix).isNan

/-- `&` on boolean arrays, broadcasting by axis name. -/
def BoolArr.band (a b : BoolArr) : BoolArr where
  dims := a.dims ++ b.dims.filter (fun d => ¬ a.dims.contains d)
  len := fun d => if a.dims.contains d then a.len d else b.len d
  data := fun ix => a.data ix && b.data ix

/-- `w.where(cond)`: keep a cell where `cond` holds, NaN elsewhere,
broadcasting by axis name (xarray's `where` keeps the callee's attrs). -/
def whereB (w : DataArray) (c : BoolArr) : DataArray where
  name := w.name
  dims := w.dims ++ c.dims.filter (fun d => ¬ w.dims.contains d)
  len := fun d => if w.dims.contains d then w.len d else c.len d
  data := fun ix => if c.data ix then w.data ix else .nan
  attrs := w.attrs
  encoding := w.encoding

/-- `np.ones(shape)` wrapped as `xr.DataArray(..., dims=dims)`. -/
def onesArr (dims : List String) (shape : List Nat) : DataArray where
  name := ""
  dims := dims
  len := fun d => ((dims.zip shape).lookup d).getD 0
  data := fun _ => .fin 1
  attrs := []
  encoding := []

/-- The `dim` argument of the operators: absent, a single axis name, or a
list of axis names. -/
inductive DimSpec where
  | omitted
  | str (s : String)
  | list (l : List String)

/-- The fatal error taxonomy of the source: the `ValueError` raised for an
unresolvable dimension spec (carrying `x.name`), the `AssertionError`s of
the two shape `assert`s, and the `AssertionError` of
`np.testing.assert_allclose(..., 1.0)`. -/
inductive Err where
  | invalidDimension (varName : String)
  | shapeMismatch
  | normalizationError
  deriving DecidableEq, Repr

/-- The `dims` local of `_get_weights_and_dims`: Python's
`if dim and isinstance(dim, str) ... elif isinstance(dim, list) ... else`.
The empty string is falsy in Python, so `dim=""` falls through to the
final branch and yields all axes of `x`. -/
def pickDims (xdims : List String) : DimSpec → List String
  | .str s => if s = "" then xdims else [s]
  | .list l => l
  | .omitted => xdims

/-- `op_over_dims`: the requested dims filtered to those present on `x`,
order preserved. -/
def resolvedDims (x : DataArray) (dim : DimSpec) : List String :=
  (pickDims x.dims dim).filter (fun k => x.dims.contains k)

/-- `dims_shape`: `x`'s shape restricted to the resolved dims, in `x`'s
axis order (`tuple(l for i, l in enumerate(x.shape) if x.dims[i] in
op_over_dims)`). -/
def dimsShape (x : DataArray) (op : List String) : List Nat :=
  ((x.dims.zip x.shape).filter (fun p => op.contains p.1)).map Prod.snd

/-- The normalization tripwire of `_get_weights_and_dims`:
`np.testing.assert_allclose((weights / weights.sum(op)).sum(op), 1.0)`.
In the exact model every remaining cell must equal 1 exactly; note that
`assert_allclose` succeeds vacuously on an empty array, as does `all` on
an empty cell list here. -/
def normChk (w : DataArray) (op : List String) : Bool :=
  ((sumOver op (map2 V.div w (sumOver op w))).cells).all (fun v => v == V.fin 1)

/-- `_get_weights_and_dims(x, y, weights, dim)`: resolve the reduction
dims, build default weights or validate supplied ones, mask by validity,
and verify normalization.  Returns the masked weights and the resolved
dims, or the first fatal error. -/
def _get_weights_and_dims (x : DataArray) (y : Option DataArray)
    (weights : Option DataArray) (dim : DimSpec) :
    Except Err (DataArray × List String) := do
  let op_over_dims := resolvedDims x dim
  if op_over_dims.isEmpty then
    throw (Err.invalidDimension x.name)
  else
    let dims_shape := dimsShape x op_over_dims
    let w0 ← match weights with
      | Option.none => pure (onesArr op_over_dims dims_shape)
      | Option.some w =>
          if w.shape = dims_shape then pure w else throw Err.shapeMismatch
    let valid ← match y with
      | Option.some yv =>
          if x.shape = yv.shape then pure ((x.notnull).band (yv.notnull))
          else throw Err.shapeMismatch
      | Option.none => pure x.notnull
    let wMasked := whereB w0 valid
    if normChk wMasked op_over_dims then
      pure (wMasked, op_over_dims)
    else
      throw Err.normalizationError

/-- Modelled from the spec: `get_original_attrs` lives in
`esmlab/utils/variables.py`, which is not part of the provided sources.
Per §6 of the spec it returns the array's descriptive attributes and its
encoding. -/
def get_original_attrs (a : DataArray) :
    List (String × String) × List (String × String) :=
  (a.attrs, a.encoding)

/-- Modelled from the spec: `update_attrs` lives in
`esmlab/utils/variables.py`, which is not part of the provided sources.
Per §6 of the spec it copies the given attributes and encoding onto the
result and must not alter the numeric result. -/
def update_attrs (r : DataArray)
    (p : List (String × String) × List (String × String)) : DataArray :=
  { r with attrs := p.1, encoding := p.2 }

/-- `weighted_sum(x, weights, dim)`.  The first component collects the
warnings emitted (the default-weight advisory when `weights is None`);
the second the result or the fatal error. -/
def weighted_sum (x : DataArray) (weights : Option DataArray)
    (dim : DimSpec) : List String × Except Err DataArray :=
  ((if weights.isNone then
      ["Computing sum with equal weights for all data points"] else []),
   do
    let (w, op_over_dims) ← _get_weights_and_dims x Option.none weights dim
    let x_w_sum := sumOver op_over_dims (map2 V.mul x w)
    pure (update_attrs x_w_sum (get_original_attrs x)))

/-- `weighted_mean(x, weights, dim)`: the masked weights are passed down
to a nested `weighted_sum` call with `dim=op_over_dims`, then divided by
`weights.sum(op_over_dims)`.  The nested call never warns because the
weights argument it receives is always present. -/
def weighted_mean (x : DataArray) (weights : Option DataArray)
    (dim : DimSpec) : List String × Except Err DataArray :=
  ((if weights.isNone then
      ["Computing mean with equal weights for all data points"] else []),
   do
    let (w, op_over_dims) ← _get_weights_and_dims x Option.none weights dim
    let s ← (weighted_sum x (Option.some w) (DimSpec.list op_over_dims)).2
    let x_w_mean := map2 V.div s (sumOver op_over_dims w)
    pure (update_attrs x_w_mean (get_original_attrs x)))

/-- `weighted_std(x, weights, dim, ddof)`:
`sqrt((weights * (x - mean)**2).sum(op) / (weights.sum(op) - ddof))`. -/
def weighted_std (x : DataArray) (weights : Option DataArray)
    (dim : DimSpec) (ddof : Int) : List String × Except Err DataArray :=
  ((if weights.isNone then
      ["Computing standard deviation with equal weights for all data points"]
    else []),
   do
    let (w, op_over_dims) ← _get_weights_and_dims x Option.none weights dim
    let x_w_mean ← (weighted_mean x (Option.some w) (DimSpec.list op_over_dims)).2
    let dev := map2 V.sub x x_w_mean
    let sq := map1 (fun v => V.mul v v) dev
    let numv := sumOver op_over_dims (map2 V.mul w sq)
    let denv := map1 (fun v => V.sub v (V.fin (ddof : ℚ))) (sumOver op_over_dims w)
    let x_w_std := map1 V.sqrt (map2 V.div numv denv)
    pure (update_attrs x_w_std (get_original_attrs x)))

/-- `weighted_rmsd(x, y, weights, dim)`:
`sqrt(weighted_mean((x - y)**2))`.  The result is returned without the
`update_attrs` step the single-array operators perform. -/
def weighted_rmsd (x y : DataArray) (weights : Option DataArray)
    (dim : DimSpec) : List String × Except Err DataArray :=
  ((if weights.isNone then
      ["Computing root-mean-square-deviation with equal weights for all data points"]
    else []),
   do
    let (w, op_over_dims) ← _get_weights_and_dims x (Option.some y) weights dim
    let dev := map1 (fun v => V.mul v v) (map2 V.sub x y)
    let dev_mean ← (weighted_mean dev (Option.some w) (DimSpec.list op_over_dims)).2
    pure (map1 V.sqrt dev_mean))

/-- `weighted_cov(x, y, weights, dim)`:
`weighted_mean((x - mean_x) * (y - mean_y))`.  The result carries the
attrs of the deviation product (dropped by arithmetic), not `x`'s. -/
def weighted_cov (x y : DataArray) (weights : Option DataArray)
    (dim : DimSpec) : List String × Except Err DataArray :=
  ((if weights.isNone then
      ["Computing weighted covariance with equal weights for all data points"]
    else []),
   do
    let (w, op_over_dims) ← _get_weights_and_dims x (Option.some y) weights dim
    let mean_x ← (weighted_mean x (Option.some w) (DimSpec.list op_over_dims)).2
    let mean_y ← (weighted_mean y (Option.some w) (DimSpec.list op_over_dims)).2
    let dev_x := map2 V.sub x mean_x
    let dev_y := map2 V.sub y mean_y
    let dev_xy := map2 V.mul dev_x dev_y
    let cov_xy ←
      (weighted_mean dev_xy (Option.some w) (DimSpec.list op_over_dims)).2
    pure cov_xy)

/-- `weighted_corr(x, y, weights, dim)`:
`weighted_cov(x,y) / sqrt(weighted_cov(x,x) * weighted_cov(y,y))`. -/
def weighted_corr (x y : DataArray) (weights : Option DataArray)
    (dim : DimSpec) : List String × Except Err DataArray :=
  ((if weights.isNone then
      ["Computing weighted correlation with equal weights for all data points"]
    else []),
   do
    let (w, op_over_dims) ← _get_weights_and_dims x (Option.some y) weights dim
    let numerator ←
      (weighted_cov x y (Option.some w) (DimSpec.list op_over_dims)).2
    let vx ← (weighted_cov x x (Option.some w) (DimSpec.list op_over_dims)).2
    let vy ← (weighted_cov y y (Option.some w) (DimSpec.list op_over_dims)).2
    let denominator := map1 V.sqrt (map2 V.mul vx vy)
    pure (map2 V.div numerator denominator))

/-! ## Helper definitions for stating and witnessing the claims -/

/-- Lift a list of rationals to finite cells. -/
def finL (l : List ℚ) : List V := l.map V.fin

/-- A one-dimensional `DataArray` over axis `"i"` holding the given
cells. -/
def mkDA1 (nm : String) (l : List V) : DataArray where
  name := nm
  dims := ["i"]
  len := fun d => if d = "i" then l.length else 0
  data := fun ix => l.getD (ix "i") V.nan
  attrs := []
  encoding := []

/-- A two-by-n `DataArray` over axes `("a", "b")` holding the two given
rows, with a sample `units` attribute. -/
def mkDA2 (nm : String) (r0 r1 : List V) : DataArray where
  name := nm
  dims := ["a", "b"]
  len := fun d => if d = "a" then 2 else if d = "b" then r0.length else 0
  data := fun ix => (if ix "a" = 0 then r0 else r1).getD (ix "b") V.nan
  attrs := [("units", "K")]
  encoding := [("dtype", "float64")]

/-- The spec's running example: `x = [[1,2],[3,4]]` over dims
`(a:2, b:2)`. -/
def exX : DataArray := mkDA2 "x" (finL [1, 2]) (finL [3, 4])

/-- A ones weight array over axis `"a"` of length 2 (a valid weights
array for reducing `exX` over `"a"`). -/
def exWa : DataArray where
  name := "w"
  dims := ["a"]
  len := fun d => if d = "a" then 2 else 0
  data := fun _ => V.fin 1
  attrs := []
  encoding := []

/-- The error component of an operator result, if any. -/
def resErr {α : Type} : Except Err α → Option Err
  | .error e => some e
  | .ok _ => none

/-- The observable value of an operator result: remaining dims and the
cell values, if the call succeeded. -/
def resCells : Except Err DataArray → Option (List String × List V)
  | .error _ => none
  | .ok r => some (r.dims, r.cells)

/-- The attrs of an operator result, if the call succeeded. -/
def resAttrs : Except Err DataArray → Option (List (String × String))
  | .error _ => none
  | .ok r => some r.attrs

/-- A cell is a finite rational or the missing sentinel (no infinities,
no unrepresentable value). -/
def V.finOrNan : V → Bool
  | .fin _ => true
  | .nan => true
  | _ => false

/-- A non-finite IEEE value: an infinity or NaN. -/
def V.nonfinite : V → Bool
  | .pinf => true
  | .ninf => true
  | .nan => true
  | _ => false

/-- The default-weight mask pattern: weight 1 where the cell is present,
NaN where it is missing. -/
def maskOnes (v : V) : V := if v.isNan then V.nan else V.fin 1

/-- `f` reads a multi-index only at the given axis names. -/
def DepOn (f : Ix → V) (ds : List String) : Prop :=
  ∀ ix ix' : Ix, (∀ d ∈ ds, ix d = ix' d) → f ix = f ix'

/-- Well-formedness of a `DataArray`: distinct axis names and cell data
reading the multi-index only at those axes (as is automatic for a real
`xr.DataArray`). -/
structure Wf (a : DataArray) : Prop where
  nodup : a.dims.Nodup
  dep : DepOn a.data a.dims

/-- Observational equality of arrays: same axes, same lengths on those
axes, same cells everywhere (metadata may differ). -/
structure ObsEq (a b : DataArray) : Prop where
  dims : a.dims = b.dims
  len : ∀ d ∈ a.dims, a.len d = b.len d
  data : ∀ ix, a.data ix = b.data ix

/-- The row-major grid of multi-indices of an array. -/
def DataArray.grid (a : DataArray) : List Ix :=
  allIdx a.axes (fun _ => 0)

/-- Number of present (non-NaN) cells in a cell list. -/
def nValid (l : List V) : ℕ := (l.filter (fun v => !v.isNan)).length

/-- Sum of the finite cells of a cell list (missing cells contribute
nothing). -/
def qsumValid (l : List V) : ℚ :=
  l.foldr (fun v acc => match v with | .fin q => q + acc | _ => acc) 0

/-- Sum of squared deviations of the finite cells from `m`. -/
def qdevsum (l : List V) (m : ℚ) : ℚ :=
  l.foldr (fun v acc =>
    match v with | .fin q => (q - m) * (q - m) + acc | _ => acc) 0

/-- Weight total over the positions where the data cell is present
(pairs a cell list with a rational weight list). -/
def wsumValid : List V → List ℚ → ℚ
  | _, [] => 0
  | [], _ => 0
  | v :: xs, w :: ws => (if v.isNan then 0 else w) + wsumValid xs ws

/-- Weighted data total over the positions where the data cell is a
finite value. -/
def xwsumValid : List V → List ℚ → ℚ
  | _, [] => 0
  | [], _ => 0
  | v :: xs, w :: ws =>
      (match v with | .fin q => q * w | _ => 0) + xwsumValid xs ws

/-- An array with an axis literally named by the empty string (legal in
xarray, where dim names are arbitrary hashables). -/
def exEmptyDim : DataArray where
  name := "e"
  dims := ["", "b"]
  len := fun d => if d = "b" then 2 else if d = "" then 2 else 0
  data := fun _ => V.fin 1
  attrs := []
  encoding := []

/-- A small 1-d data array `[1, 2]`. -/
def exZX : DataArray := mkDA1 "x" (finL [1, 2])

/-- An all-zero supplied weights array matching `exZX`. -/
def exZW : DataArray := mkDA1 "w" (finL [0, 0])

/-- A 1-d data array `[1, 3]` (used for the std denominator case). -/
def exSX : DataArray := mkDA1 "x" (finL [1, 3])

/-- A constant 1-d data array `[2, 2]` (zero variance). -/
def exCX : DataArray := mkDA1 "x" (finL [2, 2])

/-- A weights array of the wrong shape (length 3) for `exX`. -/
def exWbad : DataArray := mkDA1 "w" (finL [1, 2, 3])

/-- A 2x3 array, shape-incompatible with the 2x2 `exX`. -/
def exY23 : DataArray := mkDA2 "y" (finL [1, 2, 3]) (finL [4, 5, 6])

/-- A 1-d array `[1, 3]` over axis `"i"` with total cell data (used as a
witness input). -/
def wZX : DataArray where
  name := "x"
  dims := ["i"]
  len := fun d => if d = "i" then 2 else 0
  data := fun ix => if ix "i" = 0 then V.fin 1 else V.fin 3
  attrs := []
  encoding := []

/-- An all-zero weights array matching `wZX`. -/
def wZW : DataArray where
  name := "w"
  dims := ["i"]
  len := fun d => if d = "i" then 2 else 0
  data := fun _ => V.fin 0
  attrs := []
  encoding := []

/-- A constant 1-d array `[2, 2]` over axis `"i"` with total cell data. -/
def wCX : DataArray where
  name := "x"
  dims := ["i"]
  len := fun d => if d = "i" then 2 else 0
  data := fun _ => V.fin 2
  attrs := []
  encoding := []

/-- A uniform 2x2 weights array over axes `("a", "b")` with total cell
data (a valid weights array for a full reduction of `exX`). -/
def wOnes2 : DataArray where
  name := "w"
  dims := ["a", "b"]
  len := fun d => if d = "a" then 2 else if d = "b" then 2 else 0
  data := fun _ => V.fin 1
  attrs := []
  encoding := []

/-- A one-dimensional array containing an infinity: `[1, 2, +inf]`.  The
infinite cell is valid under `notnull`, but breaks the self-correlation
identity. -/
def exIX : DataArray := mkDA1 "x" [V.fin 1, V.fin 2, V.pinf]

/-- A cell list with the positions flagged by `mask` replaced by the
missing sentinel (the masked variant of the data). -/
def maskedCells (xs : List ℚ) (mask : List Bool) : List V :=
  List.zipWith (fun q b => if b then V.nan else V.fin q) xs mask

/-- The positions flagged by `mask` removed outright (the excluded
variant of the data or of the weights). -/
def dropMasked {α : Type} : List α → List Bool → List α
  | [], _ => []
  | _ :: _, [] => []
  | a :: t, b :: bs => if b then dropMasked t bs else a :: dropMasked t bs

/-- The setting shared by the full-reduction workhorse lemmas: `wm` is a
masked weight array for the data array `z` — same axes and lengths, and
each cell is NaN exactly where `z` is missing and otherwise the finite
weight `wq ix`. -/
structure NiceW (z wm : DataArray) (wq : Ix → ℚ) : Prop where
  wf : Wf z
  ne : z.dims ≠ []
  dims : wm.dims = z.dims
  lens : ∀ d ∈ z.dims, wm.len d = z.len d
  data : ∀ ix, wm.data ix =
    if (z.data ix).isNan then V.nan else V.fin (wq ix)
  wdep : DepOn wm.data z.dims

/-! ## Resolution lemmas -/

/-! ## Basic resolution lemmas -/

theorem contains_true_iff (l : List String) (a : String) :
    l.contains a = true ↔ a ∈ l := by
  simp

theorem resolvedDims_omitted (x : DataArray) :
    resolvedDims x DimSpec.omitted = x.dims := by
  unfold resolvedDims pickDims
  exact List.filter_eq_self.mpr (fun a ha => by simpa using ha)

theorem resolvedDims_empty_str (x : DataArray) :
    resolvedDims x (DimSpec.str "") = resolvedDims x DimSpec.omitted := by
  unfold resolvedDims pickDims
  simp

theorem getWeights_empty_str (x : DataArray) (y w : Option DataArray) :
    _get_weights_and_dims x y w (DimSpec.str "") =
      _get_weights_and_dims x y w DimSpec.omitted := by
  unfold _get_weights_and_dims
  rw [resolvedDims_empty_str]

theorem except_bind_ok {α β : Type} {m : Except Err α} {f : α → Except Err β}
    {b : β} (h : m >>= f = Except.ok b) :
    ∃ a, m = Except.ok a ∧ f a = Except.ok b := by
  cases m with
  | error e => simp [Bind.bind, Except.bind] at h
  | ok a => exact ⟨a, rfl, by simpa [Bind.bind, Except.bind] using h⟩

theorem getWeights_ok_normChk {x : DataArray} {y w : Option DataArray}
    {dim : DimSpec} {wm : DataArray} {op : List String}
    (h : _get_weights_and_dims x y w dim = Except.ok (wm, op)) :
    normChk wm op = true := by
  rcases w with _ | wv <;> rcases y with _ | yv
  case none.none =>
    unfold _get_weights_and_dims at h
    simp only [bind, Except.bind, pure, Except.pure, throw, throwThe,
      MonadExceptOf.throw] at h
    split at h
    · exact absurd h (by simp)
    · split at h
      · simp only [Except.ok.injEq, Prod.mk.injEq] at h
        obtain ⟨h1, h2⟩ := h
        subst h1; subst h2; assumption
      · exact absurd h (by simp)
  case none.some =>
    unfold _get_weights_and_dims at h
    simp only [bind, Except.bind, pure, Except.pure, throw, throwThe,
      MonadExceptOf.throw] at h
    split at h
    · exact absurd h (by simp)
    · split at h
      · split at h
        · simp only [Except.ok.injEq, Prod.mk.injEq] at h
          obtain ⟨h1, h2⟩ := h
          subst h1; subst h2; assumption
        · exact absurd h (by simp)
      · exact absurd h (by simp)
  case some.none =>
    unfold _get_weights_and_dims at h
    simp only [bind, Except.bind, pure, Except.pure, throw, throwThe,
      MonadExceptOf.throw] at h
    split at h
    · exact absurd h (by simp)
    · split at h
      · split at h
        · simp only [Except.ok.injEq, Prod.mk.injEq] at h
          obtain ⟨h1, h2⟩ := h
          subst h1; subst h2; assumption
        · exact absurd h (by simp)
      · exact absurd h (by simp)
  case some.some =>
    unfold _get_weights_and_dims at h
    simp only [bind, Except.bind, pure, Except.pure, throw, throwThe,
      MonadExceptOf.throw] at h
    split at h
    · exact absurd h (by simp)
    · split at h
      · split at h
        · split at h
          · simp only [Except.ok.injEq, Prod.mk.injEq] at h
            obtain ⟨h1, h2⟩ := h
            subst h1; subst h2; assumption
          · exact absurd h (by simp)
        · exact absurd h (by simp)
      · exact absurd h (by simp)

/-- C10: for every operator, `dim=""` is treated exactly like an omitted
`dim` (the empty string is falsy in the Python dispatch), reducing over
all of the array's dimensions. -/
theorem claim_C10_empty_string_dim :
    (∀ x : DataArray, resolvedDims x (DimSpec.str "") = x.dims) ∧
    (∀ (x : DataArray) (y w : Option DataArray),
      _get_weights_and_dims x y w (DimSpec.str "") =
        _get_weights_and_dims x y w DimSpec.omitted) ∧
    (∀ (x : DataArray) (w : Option DataArray),
      weighted_sum x w (DimSpec.str "") = weighted_sum x w DimSpec.omitted ∧
      weighted_mean x w (DimSpec.str "") = weighted_mean x w DimSpec.omitted ∧
      (∀ ddof : Int, weighted_std x w (DimSpec.str "") ddof =
        weighted_std x w DimSpec.omitted ddof)) ∧
    (∀ (x y : DataArray) (w : Option DataArray),
      weighted_rmsd x y w (DimSpec.str "") = weighted_rmsd x y w DimSpec.omitted ∧
      weighted_cov x y w (DimSpec.str "") = weighted_cov x y w DimSpec.omitted ∧
      weighted_corr x y w (DimSpec.str "") = weighted_corr x y w DimSpec.omitted) := by
  refine ⟨?_, ?_, ?_, ?_⟩
  · intro x
    rw [resolvedDims_empty_str, resolvedDims_omitted]
  · intro x y w
    exact getWeights_empty_str x y w
  · intro x w
    refine ⟨?_, ?_, ?_⟩
    · unfold weighted_sum
      rw [getWeights_empty_str]
    · unfold weighted_mean
      rw [getWeights_empty_str]
    · intro ddof
      unfold weighted_std
      rw [getWeights_empty_str]
  · intro x y w
    refine ⟨?_, ?_, ?_⟩
    · unfold weighted_rmsd
      rw [getWeights_empty_str]
    · unfold weighted_cov
      rw [getWeights_empty_str]
    · unfold weighted_corr
      rw [getWeights_empty_str]

/-- C7 counterexample: on an array whose axes are `["", "b"]`, the dim
spec consisting of the single axis name `""` does not resolve to the
singleton `[""]` — Python's truthiness test sends the empty string to the
"absent" branch, so it resolves to all axes `["", "b"]`. -/
theorem claim_C7_counterexample :
    ¬ (resolvedDims exEmptyDim (DimSpec.str "") = [""]) := by decide

/-- C7 (amended): an absent dim spec resolves to all axes; a single
nonempty axis name resolves to the singleton list of that name (the
empty-string name instead behaves like an absent spec); a sequence
resolves to itself filtered, order preserved, to the axes present on the
array; an empty filtered result is a fatal `InvalidDimension` error
naming the array. -/
theorem claim_C7_dim_resolution :
    (∀ x : DataArray, resolvedDims x DimSpec.omitted = x.dims) ∧
    (∀ (xdims : List String) (s : String), s ≠ "" →
      pickDims xdims (DimSpec.str s) = [s]) ∧
    (∀ (x : DataArray) (l : List String),
      resolvedDims x (DimSpec.list l) = l.filter (fun k => x.dims.contains k)) ∧
    (∀ (x : DataArray) (y w : Option DataArray) (dim : DimSpec),
      resolvedDims x dim = [] →
      _get_weights_and_dims x y w dim =
        Except.error (Err.invalidDimension x.name)) := by
  refine ⟨resolvedDims_omitted, ?_, ?_, ?_⟩
  · intro xdims s hs
    simp [pickDims, hs]
  · intro x l
    rfl
  · intro x y w dim h
    unfold _get_weights_and_dims
    simp [h]
    rfl

/-- C7 witness: the amended resolution contract at concrete inputs. -/
theorem claim_C7_witness :
    pickDims exX.dims (DimSpec.str "a") = ["a"] ∧
    resolvedDims exX (DimSpec.list ["b", "a", "z"]) = ["b", "a"] ∧
    _get_weights_and_dims exX Option.none Option.none (DimSpec.str "z") =
      Except.error (Err.invalidDimension "x") := by
  refine ⟨claim_C7_dim_resolution.2.1 _ "a" (by decide), ?_, ?_⟩
  · have h := claim_C7_dim_resolution.2.2.1 exX ["b", "a", "z"]
    rw [h]
    decide
  · apply claim_C7_dim_resolution.2.2.2
    decide

/-- C2: the spec scenario `x = [[1,2],[3,4]]` over `(a:2, b:2)`,
`weights=None`, `dim="a"` is supposed to yield the column means
`[2.0, 3.0]`; the code instead crashes.  The default-weight warning is
emitted, and the masked weights (broadcast by `where` to both axes,
shape `(2,2)`) then fail the nested `weighted_sum` shape assertion
against the reduction sub-shape `(2,)`, so `weighted_mean` raises an
`AssertionError` and produces no result — while a direct `weighted_sum`
over the same dim succeeds. -/
theorem claim_C2_partial_dim_crash :
    (weighted_mean exX Option.none (DimSpec.str "a")).2 =
      Except.error Err.shapeMismatch ∧
    (weighted_mean exX Option.none (DimSpec.str "a")).1 =
      ["Computing mean with equal weights for all data points"] ∧
    resCells (weighted_sum exX Option.none (DimSpec.str "a")).2 =
      some (["b"], [V.fin 4, V.fin 6]) := by
  refine ⟨?_, ?_, ?_⟩
  · with_unfolding_all rfl
  · with_unfolding_all rfl
  · with_unfolding_all rfl

/-- C3 counterexample: with supplied all-zero weights the masked weight
total is zero, yet `weighted_mean` does not return a non-finite value —
the normalization tripwire `assert_allclose((w/Σw).sum(), 1.0)` fails
first (each `0/0` is NaN, the NaN-skipping sum is `0 ≠ 1`), so the call
raises instead of propagating a non-finite result. -/
theorem claim_C3_counterexample :
    (weighted_mean exZX (some exZW) DimSpec.omitted).2 =
      Except.error Err.normalizationError := by
  with_unfolding_all rfl

/-- C4 counterexample: `weighted_cov` succeeds on `exX` (which carries a
`units` attribute) but returns a result whose attrs are empty, not
`exX`'s — the pairwise operators never copy the primary input's
metadata onto their result. -/
theorem claim_C4_counterexample :
    resAttrs (weighted_cov exX exX Option.none DimSpec.omitted).2 = some [] ∧
    ¬ (exX.attrs = []) := by
  exact ⟨by with_unfolding_all rfl, by decide⟩

/-- C4 (amended): the single-array operators `weighted_sum`,
`weighted_mean` and `weighted_std` copy the primary input's descriptive
attributes and encoding onto every successful result, and the metadata
copy never alters dims, lengths or cell data; the pairwise operators
`weighted_rmsd`, `weighted_cov` and `weighted_corr` do not perform this
copy (their results carry the empty attrs produced by arithmetic, see
the counterexample). -/
theorem claim_C4_attrs_passthrough :
    (∀ (x : DataArray) (w : Option DataArray) (dim : DimSpec) (r : DataArray),
      (weighted_sum x w dim).2 = Except.ok r →
        r.attrs = x.attrs ∧ r.encoding = x.encoding) ∧
    (∀ (x : DataArray) (w : Option DataArray) (dim : DimSpec) (r : DataArray),
      (weighted_mean x w dim).2 = Except.ok r →
        r.attrs = x.attrs ∧ r.encoding = x.encoding) ∧
    (∀ (x : DataArray) (w : Option DataArray) (dim : DimSpec) (ddof : Int)
       (r : DataArray),
      (weighted_std x w dim ddof).2 = Except.ok r →
        r.attrs = x.attrs ∧ r.encoding = x.encoding) ∧
    (∀ (r : DataArray)
       (p : List (String × String) × List (String × String)),
      (update_attrs r p).dims = r.dims ∧ (update_attrs r p).len = r.len ∧
        (update_attrs r p).data = r.data) := by
  refine ⟨?_, ?_, ?_, ?_⟩
  · intro x w dim r h
    unfold weighted_sum at h
    obtain ⟨⟨wm, op⟩, _, h⟩ := except_bind_ok h
    simp only [pure, Except.pure, Except.ok.injEq] at h
    subst h
    exact ⟨rfl, rfl⟩
  · intro x w dim r h
    unfold weighted_mean at h
    obtain ⟨⟨wm, op⟩, _, h⟩ := except_bind_ok h
    obtain ⟨s, _, h⟩ := except_bind_ok h
    simp only [pure, Except.pure, Except.ok.injEq] at h
    subst h
    exact ⟨rfl, rfl⟩
  · intro x w dim ddof r h
    unfold weighted_std at h
    obtain ⟨⟨wm, op⟩, _, h⟩ := except_bind_ok h
    obtain ⟨m, _, h⟩ := except_bind_ok h
    simp only [pure, Except.pure, Except.ok.injEq] at h
    subst h
    exact ⟨rfl, rfl⟩
  · intro r p
    exact ⟨rfl, rfl, rfl⟩

/-- C4 witness: the passthrough theorem applied to a successful
`weighted_sum` call on `exX` (which carries a `units` attribute). -/
theorem claim_C4_witness :
    resAttrs (weighted_sum exX Option.none DimSpec.omitted).2 =
      some [("units", "K")] := by
  have hok : ∃ r, (weighted_sum exX Option.none DimSpec.omitted).2 =
      Except.ok r ∧ resAttrs (weighted_sum exX Option.none DimSpec.omitted).2 =
      some r.attrs := by
    cases hr : (weighted_sum exX Option.none DimSpec.omitted).2 with
    | error e =>
        exact absurd hr (by with_unfolding_all
          exact fun hc => Except.noConfusion hc)
    | ok r => exact ⟨r, rfl, by simp [resErr, resAttrs]⟩
  obtain ⟨r, hr, hres⟩ := hok
  have := (claim_C4_attrs_passthrough.1 exX Option.none DimSpec.omitted r hr).1
  rw [hres, this]
  with_unfolding_all rfl

/-- C5: whenever weight resolution succeeds the masked weights satisfy
the normalization invariant — for every combination of the non-reduced
axes, `(w / w.sum(op)).sum(op)` equals exactly 1 — and every operator
that returns a result went through a resolution that passed this check;
a violation is a fatal `NormalizationError` raised inside
`_get_weights_and_dims`, before any statistic is computed. -/
theorem claim_C5_normalization_invariant :
    (∀ (x : DataArray) (y w : Option DataArray) (dim : DimSpec)
       (wm : DataArray) (op : List String),
      _get_weights_and_dims x y w dim = Except.ok (wm, op) →
        normChk wm op = true) ∧
    (∀ (x : DataArray) (w : Option DataArray) (dim : DimSpec) (r : DataArray),
      (weighted_sum x w dim).2 = Except.ok r →
        ∃ wm op, _get_weights_and_dims x Option.none w dim = Except.ok (wm, op) ∧
          normChk wm op = true) ∧
    (∀ (x : DataArray) (w : Option DataArray) (dim : DimSpec) (r : DataArray),
      (weighted_mean x w dim).2 = Except.ok r →
        ∃ wm op, _get_weights_and_dims x Option.none w dim = Except.ok (wm, op) ∧
          normChk wm op = true) ∧
    (∀ (x : DataArray) (w : Option DataArray) (dim : DimSpec) (ddof : Int)
       (r : DataArray),
      (weighted_std x w dim ddof).2 = Except.ok r →
        ∃ wm op, _get_weights_and_dims x Option.none w dim = Except.ok (wm, op) ∧
          normChk wm op = true) ∧
    (∀ (x y : DataArray) (w : Option DataArray) (dim : DimSpec) (r : DataArray),
      (weighted_rmsd x y w dim).2 = Except.ok r →
        ∃ wm op, _get_weights_and_dims x (some y) w dim = Except.ok (wm, op) ∧
          normChk wm op = true) ∧
    (∀ (x y : DataArray) (w : Option DataArray) (dim : DimSpec) (r : DataArray),
      (weighted_cov x y w dim).2 = Except.ok r →
        ∃ wm op, _get_weights_and_dims x (some y) w dim = Except.ok (wm, op) ∧
          normChk wm op = true) ∧
    (∀ (x y : DataArray) (w : Option DataArray) (dim : DimSpec) (r : DataArray),
      (weighted_corr x y w dim).2 = Except.ok r →
        ∃ wm op, _get_weights_and_dims x (some y) w dim = Except.ok (wm, op) ∧
          normChk wm op = true) := by
  refine ⟨fun _ _ _ _ _ _ h => getWeights_ok_normChk h, ?_, ?_, ?_, ?_, ?_, ?_⟩
  · intro x w dim r h
    unfold weighted_sum at h
    obtain ⟨⟨wm, op⟩, h1, _⟩ := except_bind_ok h
    exact ⟨wm, op, h1, getWeights_ok_normChk h1⟩
  · intro x w dim r h
    unfold weighted_mean at h
    obtain ⟨⟨wm, op⟩, h1, _⟩ := except_bind_ok h
    exact ⟨wm, op, h1, getWeights_ok_normChk h1⟩
  · intro x w dim ddof r h
    unfold weighted_std at h
    obtain ⟨⟨wm, op⟩, h1, _⟩ := except_bind_ok h
    exact ⟨wm, op, h1, getWeights_ok_normChk h1⟩
  · intro x y w dim r h
    unfold weighted_rmsd at h
    obtain ⟨⟨wm, op⟩, h1, _⟩ := except_bind_ok h
    exact ⟨wm, op, h1, getWeights_ok_normChk h1⟩
  · intro x y w dim r h
    unfold weighted_cov at h
    obtain ⟨⟨wm, op⟩, h1, _⟩ := except_bind_ok h
    exact ⟨wm, op, h1, getWeights_ok_normChk h1⟩
  · intro x y w dim r h
    unfold weighted_corr at h
    obtain ⟨⟨wm, op⟩, h1, _⟩ := except_bind_ok h
    exact ⟨wm, op, h1, getWeights_ok_normChk h1⟩

/-- C5 witness: the invariant at a concrete resolution (default weights
on `exX`, full reduction). -/
theorem claim_C5_witness :
    ∃ wm op, _get_weights_and_dims exX Option.none Option.none
        DimSpec.omitted = Except.ok (wm, op) ∧ normChk wm op = true := by
  have h : _get_weights_and_dims exX Option.none Option.none DimSpec.omitted =
      Except.ok (whereB (onesArr (resolvedDims exX DimSpec.omitted)
        (dimsShape exX (resolvedDims exX DimSpec.omitted))) exX.notnull,
        resolvedDims exX DimSpec.omitted) := by
    with_unfolding_all rfl
  exact ⟨_, _, h, claim_C5_normalization_invariant.1 _ _ _ _ _ _ h⟩

theorem getWeights_wshape_err (x : DataArray) (y : Option DataArray)
    (wv : DataArray) (dim : DimSpec)
    (hne : resolvedDims x dim ≠ [])
    (hsh : wv.shape ≠ dimsShape x (resolvedDims x dim)) :
    _get_weights_and_dims x y (some wv) dim = Except.error Err.shapeMismatch := by
  rcases y with _ | yv <;>
    (unfold _get_weights_and_dims
     simp only [bind, Except.bind, pure, Except.pure, throw, throwThe,
       MonadExceptOf.throw]
     rw [if_neg (by simpa using hne), if_neg hsh])

theorem getWeights_yshape_err_none (x yv : DataArray) (dim : DimSpec)
    (hne : resolvedDims x dim ≠ [])
    (hxy : x.shape ≠ yv.shape) :
    _get_weights_and_dims x (some yv) Option.none dim =
      Except.error Err.shapeMismatch := by
  unfold _get_weights_and_dims
  simp only [bind, Except.bind, pure, Except.pure, throw, throwThe,
    MonadExceptOf.throw]
  rw [if_neg (by simpa using hne), if_neg hxy]

theorem getWeights_yshape_err_some (x yv wv : DataArray) (dim : DimSpec)
    (hne : resolvedDims x dim ≠ [])
    (hsh : wv.shape = dimsShape x (resolvedDims x dim))
    (hxy : x.shape ≠ yv.shape) :
    _get_weights_and_dims x (some yv) (some wv) dim =
      Except.error Err.shapeMismatch := by
  unfold _get_weights_and_dims
  simp only [bind, Except.bind, pure, Except.pure, throw, throwThe,
    MonadExceptOf.throw]
  rw [if_neg (by simpa using hne), if_pos hsh, if_neg hxy]

theorem weighted_sum_err {x : DataArray} {w : Option DataArray}
    {dim : DimSpec} {e : Err}
    (h : _get_weights_and_dims x Option.none w dim = Except.error e) :
    (weighted_sum x w dim).2 = Except.error e := by
  unfold weighted_sum
  simp [h, bind, Except.bind]

theorem weighted_mean_err {x : DataArray} {w : Option DataArray}
    {dim : DimSpec} {e : Err}
    (h : _get_weights_and_dims x Option.none w dim = Except.error e) :
    (weighted_mean x w dim).2 = Except.error e := by
  unfold weighted_mean
  simp [h, bind, Except.bind]

theorem weighted_std_err {x : DataArray} {w : Option DataArray}
    {dim : DimSpec} {ddof : Int} {e : Err}
    (h : _get_weights_and_dims x Option.none w dim = Except.error e) :
    (weighted_std x w dim ddof).2 = Except.error e := by
  unfold weighted_std
  simp [h, bind, Except.bind]

theorem weighted_rmsd_err {x y : DataArray} {w : Option DataArray}
    {dim : DimSpec} {e : Err}
    (h : _get_weights_and_dims x (some y) w dim = Except.error e) :
    (weighted_rmsd x y w dim).2 = Except.error e := by
  unfold weighted_rmsd
  simp [h, bind, Except.bind]

theorem weighted_cov_err {x y : DataArray} {w : Option DataArray}
    {dim : DimSpec} {e : Err}
    (h : _get_weights_and_dims x (some y) w dim = Except.error e) :
    (weighted_cov x y w dim).2 = Except.error e := by
  unfold weighted_cov
  simp [h, bind, Except.bind]

theorem weighted_corr_err {x y : DataArray} {w : Option DataArray}
    {dim : DimSpec} {e : Err}
    (h : _get_weights_and_dims x (some y) w dim = Except.error e) :
    (weighted_corr x y w dim).2 = Except.error e := by
  unfold weighted_corr
  simp [h, bind, Except.bind]

/-- C6: with a resolvable dim spec, a supplied weights array whose shape
differs from the data's reduction-restricted shape makes every operator
fail with the fatal shape assertion, producing no result; and a
two-array operator whose inputs differ in shape (with weights absent or
well-shaped, so the weights assertion does not fire first) likewise
fails with the shape assertion.  Weights are never reshaped to fit. -/
theorem claim_C6_shape_mismatch :
    (∀ (x : DataArray) (wv : DataArray) (dim : DimSpec),
      resolvedDims x dim ≠ [] →
      wv.shape ≠ dimsShape x (resolvedDims x dim) →
        (weighted_sum x (some wv) dim).2 = Except.error Err.shapeMismatch ∧
        (weighted_mean x (some wv) dim).2 = Except.error Err.shapeMismatch ∧
        (∀ ddof : Int, (weighted_std x (some wv) dim ddof).2 =
          Except.error Err.shapeMismatch) ∧
        (∀ y : DataArray,
          (weighted_rmsd x y (some wv) dim).2 = Except.error Err.shapeMismatch ∧
          (weighted_cov x y (some wv) dim).2 = Except.error Err.shapeMismatch ∧
          (weighted_corr x y (some wv) dim).2 = Except.error Err.shapeMismatch)) ∧
    (∀ (x y : DataArray) (dim : DimSpec),
      resolvedDims x dim ≠ [] →
      x.shape ≠ y.shape →
        (weighted_rmsd x y Option.none dim).2 = Except.error Err.shapeMismatch ∧
        (weighted_cov x y Option.none dim).2 = Except.error Err.shapeMismatch ∧
        (weighted_corr x y Option.none dim).2 = Except.error Err.shapeMismatch) ∧
    (∀ (x y wv : DataArray) (dim : DimSpec),
      resolvedDims x dim ≠ [] →
      wv.shape = dimsShape x (resolvedDims x dim) →
      x.shape ≠ y.shape →
        (weighted_rmsd x y (some wv) dim).2 = Except.error Err.shapeMismatch ∧
        (weighted_cov x y (some wv) dim).2 = Except.error Err.shapeMismatch ∧
        (weighted_corr x y (some wv) dim).2 = Except.error Err.shapeMismatch) := by
  refine ⟨?_, ?_, ?_⟩
  · intro x wv dim hne hsh
    have hn := getWeights_wshape_err x Option.none wv dim hne hsh
    exact ⟨weighted_sum_err hn, weighted_mean_err hn,
      fun ddof => weighted_std_err hn,
      fun y =>
        have hy := getWeights_wshape_err x (some y) wv dim hne hsh
        ⟨weighted_rmsd_err hy, weighted_cov_err hy, weighted_corr_err hy⟩⟩
  · intro x y dim hne hxy
    have hy := getWeights_yshape_err_none x y dim hne hxy
    exact ⟨weighted_rmsd_err hy, weighted_cov_err hy, weighted_corr_err hy⟩
  · intro x y wv dim hne hsh hxy
    have hy := getWeights_yshape_err_some x y wv dim hne hsh hxy
    exact ⟨weighted_rmsd_err hy, weighted_cov_err hy, weighted_corr_err hy⟩

/-- C6 witness: the shape-mismatch contract at concrete inputs — a
length-3 weights array against `exX`'s reduction shape `[2]` under
`dim="a"`, and the 2x3 array `exY23` against the 2x2 `exX`. -/
theorem claim_C6_witness :
    (weighted_mean exX (some exWbad) (DimSpec.str "a")).2 =
      Except.error Err.shapeMismatch ∧
    (weighted_rmsd exX exY23 Option.none DimSpec.omitted).2 =
      Except.error Err.shapeMismatch := by
  constructor
  · exact (claim_C6_shape_mismatch.1 exX exWbad (DimSpec.str "a")
      (by with_unfolding_all decide) (by with_unfolding_all decide)).2.1
  · exact (claim_C6_shape_mismatch.2.1 exX exY23 DimSpec.omitted
      (by with_unfolding_all decide) (by with_unfolding_all decide)).1

/-! ## Grid and congruence toolkit -/

theorem mem_of_contains {l : List String} {a : String}
    (h : l.contains a = true) : a ∈ l := by simpa using h

theorem contains_of_mem {l : List String} {a : String}
    (h : a ∈ l) : l.contains a = true := by simpa using h

theorem allIdx_map_dep (f : Ix → V) (S : List String)
    (hf : DepOn f S) :
    ∀ (axes : List (String × Nat)) (ix ix' : Ix),
      (∀ d ∈ S, d ∈ axes.map Prod.fst ∨ ix d = ix' d) →
      (allIdx axes ix).map f = (allIdx axes ix').map f := by
  intro axes
  induction axes with
  | nil =>
      intro ix ix' h
      simp only [allIdx, List.map_cons, List.map_nil]
      have : f ix = f ix' := by
        apply hf
        intro d hd
        rcases h d hd with h' | h'
        · simp at h'
        · exact h'
      rw [this]
  | cons dn rest ih =>
      intro ix ix' h
      obtain ⟨d, n⟩ := dn
      simp only [allIdx, List.map_flatten, List.map_map]
      congr 1
      apply List.map_congr_left
      intro i _
      simp only [Function.comp]
      apply ih
      intro e he
      by_cases hed : e = d
      · subst hed
        right
        simp [updIx]
      · rcases h e he with h' | h'
        · simp only [List.map_cons, List.mem_cons] at h'
          rcases h' with h' | h'
          · exact absurd h' hed
          · exact Or.inl h'
        · right
          simp [updIx, hed, h']

theorem axes_map_fst (a : DataArray) : a.axes.map Prod.fst = a.dims := by
  unfold DataArray.axes
  rw [List.map_map]
  have h : (Prod.fst ∘ fun d => (d, a.len d)) = id := rfl
  rw [h, List.map_id]

theorem axes_congr {a b : DataArray} (hdims : a.dims = b.dims)
    (hlen : ∀ d ∈ a.dims, a.len d = b.len d) : a.axes = b.axes := by
  unfold DataArray.axes
  rw [← hdims]
  exact List.map_congr_left (fun d hd => by rw [hlen d hd])

theorem obsEq_cells {a b : DataArray} (h : ObsEq a b) : a.cells = b.cells := by
  unfold DataArray.cells
  rw [axes_congr h.dims h.len]
  exact List.map_congr_left (fun ix _ => h.data ix)

theorem cells_dims_nil {a : DataArray} (h : a.dims = []) :
    a.cells = [a.data (fun _ => 0)] := by
  unfold DataArray.cells DataArray.axes
  rw [h]
  rfl

theorem cells_image {a b : DataArray} (g : V → V)
    (hdims : b.dims = a.dims) (hlen : ∀ d ∈ a.dims, b.len d = a.len d)
    (hdata : ∀ ix, b.data ix = g (a.data ix)) :
    b.cells = a.cells.map g := by
  unfold DataArray.cells
  have hax : b.axes = a.axes :=
    axes_congr hdims (by intro d hd; rw [hdims] at hd; exact hlen d hd)
  rw [hax, List.map_map]
  exact List.map_congr_left (fun ix _ => by simp [Function.comp, hdata])

theorem obsEq_refl (a : DataArray) : ObsEq a a :=
  ⟨rfl, fun _ _ => rfl, fun _ => rfl⟩

theorem obsEq_symm {a b : DataArray} (h : ObsEq a b) : ObsEq b a :=
  ⟨h.dims.symm, fun d hd => (h.len d (h.dims ▸ hd)).symm,
    fun ix => (h.data ix).symm⟩

theorem obsEq_trans {a b c : DataArray} (h1 : ObsEq a b) (h2 : ObsEq b c) :
    ObsEq a c :=
  ⟨h1.dims.trans h2.dims,
    fun d hd => (h1.len d hd).trans (h2.len d (h1.dims ▸ hd)),
    fun ix => (h1.data ix).trans (h2.data ix)⟩

theorem map2_obs {a a' b b' : DataArray} (f : V → V → V)
    (ha : ObsEq a a') (hb : ObsEq b b') :
    ObsEq (map2 f a b) (map2 f a' b') := by
  refine ⟨?_, ?_, ?_⟩
  · simp only [map2, ha.dims, hb.dims]
  · intro d hd
    simp only [map2] at hd ⊢
    rw [ha.dims]
    by_cases hda : a'.dims.contains d
    · simp only [hda, if_true]
      exact ha.len d (ha.dims ▸ mem_of_contains hda)
    · simp only [hda, if_false]
      rcases List.mem_append.mp hd with hd | hd
      · exact absurd (ha.dims ▸ hd) (fun hm => hda (contains_of_mem hm))
      · exact hb.len d (List.mem_of_mem_filter hd)
  · intro ix
    simp only [map2, ha.data ix, hb.data ix]

theorem map1_obs {a a' : DataArray} (f : V → V) (ha : ObsEq a a') :
    ObsEq (map1 f a) (map1 f a') := by
  refine ⟨?_, ?_, ?_⟩
  · simp only [map1, ha.dims]
  · intro d hd
    simp only [map1] at hd ⊢
    exact ha.len d hd
  · intro ix
    simp only [map1, ha.data ix]

theorem sumOver_obs {a a' : DataArray} (ds : List String) (ha : ObsEq a a') :
    ObsEq (sumOver ds a) (sumOver ds a') := by
  refine ⟨?_, ?_, ?_⟩
  · simp only [sumOver, ha.dims]
  · intro d hd
    simp only [sumOver] at hd ⊢
    exact ha.len d (List.mem_of_mem_filter hd)
  · intro ix
    simp only [sumOver]
    have haxes : (ds.filter (fun d => a.dims.contains d)).map
        (fun d => (d, a.len d)) =
        (ds.filter (fun d => a'.dims.contains d)).map
        (fun d => (d, a'.len d)) := by
      rw [← ha.dims]
      exact List.map_congr_left (fun d hd =>
        by rw [ha.len d (mem_of_contains (List.of_mem_filter hd))])
    rw [haxes]
    congr 1
    exact List.map_congr_left (fun jx _ => ha.data jx)

theorem whereB_obs {w w' : DataArray} (c : BoolArr) (hw : ObsEq w w') :
    ObsEq (whereB w c) (whereB w' c) := by
  refine ⟨?_, ?_, ?_⟩
  · simp only [whereB, hw.dims]
  · intro d hd
    simp only [whereB] at hd ⊢
    rw [hw.dims]
    by_cases hda : w'.dims.contains d
    · simp only [hda, if_true]
      exact hw.len d (hw.dims ▸ mem_of_contains hda)
    · rw [if_neg hda, if_neg hda]
  · intro ix
    simp only [whereB, hw.data ix]

theorem whereB_absorb {wm : DataArray} {c : BoolArr}
    (hsub : ∀ d ∈ c.dims, d ∈ wm.dims)
    (hnan : ∀ ix, c.data ix = false → wm.data ix = V.nan) :
    ObsEq (whereB wm c) wm := by
  have hfilter : c.dims.filter (fun d => ¬ wm.dims.contains d) = [] := by
    rw [List.filter_eq_nil]
    intro d hd
    simpa using hsub d hd
  refine ⟨?_, ?_, ?_⟩
  · simp only [whereB, hfilter, List.append_nil]
  · intro d hd
    simp only [whereB, hfilter, List.append_nil] at hd ⊢
    rw [if_pos (contains_of_mem hd)]
  · intro ix
    simp only [whereB]
    by_cases hc : c.data ix
    · simp [hc]
    · simp only [Bool.not_eq_true] at hc
      simp [hc, hnan ix hc]

theorem normChk_congr {a b : DataArray} (h : ObsEq a b) (op : List String) :
    normChk a op = normChk b op := by
  unfold normChk
  rw [obsEq_cells (sumOver_obs op (map2_obs V.div h (sumOver_obs op h)))]

theorem filter_contains_self (l : List String) :
    l.filter (fun d => l.contains d) = l := by
  apply List.filter_eq_self.mpr
  intro d hd
  simpa using hd

theorem filter_not_contains_self (l : List String) :
    l.filter (fun d => ¬ l.contains d) = [] := by
  rw [List.filter_eq_nil]
  intro d hd
  simpa using hd

theorem resolvedDims_list_self (x : DataArray) :
    resolvedDims x (DimSpec.list x.dims) = x.dims := by
  unfold resolvedDims pickDims
  exact filter_contains_self x.dims

theorem dimsShape_self (x : DataArray) : dimsShape x x.dims = x.shape := by
  unfold dimsShape
  have h : (x.dims.zip x.shape).filter (fun p => x.dims.contains p.1) =
      x.dims.zip x.shape := by
    apply List.filter_eq_self.mpr
    intro p hp
    exact contains_of_mem (List.of_mem_zip hp).1
  rw [h]
  apply List.map_snd_zip
  simp [DataArray.shape]

theorem sumOver_full_dims {a : DataArray} {ds : List String}
    (hds : ds = a.dims) : (sumOver ds a).dims = [] := by
  simp only [sumOver, hds]
  exact filter_not_contains_self a.dims

theorem sumOver_full_data {a : DataArray} {ds : List String}
    (hds : ds = a.dims) (hdep : DepOn a.data a.dims) (ix : Ix) :
    (sumOver ds a).data ix = nansumL a.cells := by
  simp only [sumOver, hds, filter_contains_self]
  unfold DataArray.cells
  congr 1
  exact allIdx_map_dep a.data a.dims hdep a.axes ix (fun _ => 0)
    (fun d hd => Or.inl (by rw [axes_map_fst]; exact hd))

theorem lookup_zip_map (f : String → Nat) :
    ∀ (l : List String) (d : String), d ∈ l →
      ((l.zip (l.map f)).lookup d) = some (f d) := by
  intro l
  induction l with
  | nil => intro d hd; simp at hd
  | cons a t ih =>
      intro d hd
      simp only [List.map_cons, List.zip_cons_cons, List.lookup]
      by_cases hda : d = a
      · subst hda
        simp
      · have hbeq : (d == a) = false := by simpa using hda
        rw [hbeq]
        rcases List.mem_cons.mp hd with h | h
        · exact absurd h hda
        · exact ih d h

theorem onesArr_len {x : DataArray} {d : String} (hd : d ∈ x.dims) :
    (onesArr x.dims (dimsShape x x.dims)).len d = x.len d := by
  unfold onesArr
  rw [dimsShape_self]
  unfold DataArray.shape
  show ((x.dims.zip (x.dims.map x.len)).lookup d).getD 0 = x.len d
  rw [lookup_zip_map x.len x.dims d hd]
  rfl

theorem depOn_mono {f : Ix → V} {S S' : List String}
    (h : DepOn f S) (hs : ∀ d ∈ S, d ∈ S') : DepOn f S' :=
  fun ix ix' ha => h ix ix' (fun d hd => ha d (hs d hd))

theorem depOn_const (v : V) (S : List String) : DepOn (fun _ => v) S :=
  fun _ _ _ => rfl

theorem depOn_comb2 {f g : Ix → V} {S : List String} (h : V → V → V)
    (hf : DepOn f S) (hg : DepOn g S) :
    DepOn (fun ix => h (f ix) (g ix)) S :=
  fun ix ix' ha => by
    show h (f ix) (g ix) = h (f ix') (g ix')
    rw [hf ix ix' ha, hg ix ix' ha]

theorem depOn_post {f : Ix → V} {S : List String} (h : V → V)
    (hf : DepOn f S) : DepOn (fun ix => h (f ix)) S :=
  fun ix ix' ha => by
    show h (f ix) = h (f ix')
    rw [hf ix ix' ha]

/-! ## Value and list arithmetic lemmas -/

theorem nansum_nil : nansumL [] = V.fin 0 := rfl

theorem nansum_cons (v : V) (t : List V) :
    nansumL (v :: t) = V.add (V.denan v) (nansumL t) := rfl

theorem nValid_nil : nValid [] = 0 := rfl

theorem nValid_cons (v : V) (t : List V) :
    nValid (v :: t) = if v.isNan then nValid t else nValid t + 1 := by
  unfold nValid
  by_cases hv : v.isNan <;> simp [List.filter_cons, hv]

theorem qsumValid_nil : qsumValid [] = 0 := rfl

theorem qsumValid_cons (v : V) (t : List V) :
    qsumValid (v :: t) =
      (match v with | .fin q => q | _ => 0) + qsumValid t := by
  cases v <;> simp [qsumValid, List.foldr]

theorem qdevsum_nil (m : ℚ) : qdevsum [] m = 0 := rfl

theorem qdevsum_cons (v : V) (t : List V) (m : ℚ) :
    qdevsum (v :: t) m =
      (match v with | .fin q => (q - m) * (q - m) | _ => 0) + qdevsum t m := by
  cases v <;> simp [qdevsum, List.foldr]

theorem nansum_maskOnes (l : List V) :
    nansumL (l.map maskOnes) = V.fin (nValid l) := by
  induction l with
  | nil => rfl
  | cons v t ih =>
      rw [List.map_cons, nansum_cons, ih, nValid_cons]
      cases v <;> simp [maskOnes, V.isNan, V.denan, V.add] <;> push_cast <;> ring

theorem nansum_maskOnes_div (l : List V) (c : ℚ) (hc : c ≠ 0) :
    nansumL (l.map (fun v => V.div (maskOnes v) (V.fin c))) =
      V.fin ((nValid l : ℚ) / c) := by
  induction l with
  | nil => simp [nansum_nil, nValid_nil]
  | cons v t ih =>
      rw [List.map_cons, nansum_cons, ih, nValid_cons]
      cases v <;>
        simp [maskOnes, V.isNan, V.div, V.denan, V.add, hc] <;>
        push_cast <;> ring

theorem nansum_mul_maskOnes (l : List V)
    (hfin : ∀ v ∈ l, v.finOrNan = true) :
    nansumL (l.map (fun v => V.mul v (maskOnes v))) = V.fin (qsumValid l) := by
  induction l with
  | nil => rfl
  | cons v t ih =>
      have hv := hfin v (List.mem_cons_self v t)
      have ht : ∀ v ∈ t, v.finOrNan = true :=
        fun u hu => hfin u (List.mem_cons_of_mem v hu)
      rw [List.map_cons, nansum_cons, ih ht, qsumValid_cons]
      cases v <;> simp_all [V.finOrNan, maskOnes, V.isNan, V.mul, V.denan, V.add]

theorem nansum_devsq_maskOnes (l : List V) (m : ℚ)
    (hfin : ∀ v ∈ l, v.finOrNan = true) :
    nansumL (l.map (fun v =>
      V.mul (V.mul (V.sub v (V.fin m)) (V.sub v (V.fin m))) (maskOnes v))) =
      V.fin (qdevsum l m) := by
  induction l with
  | nil => rfl
  | cons v t ih =>
      have hv := hfin v (List.mem_cons_self v t)
      have ht : ∀ u ∈ t, u.finOrNan = true :=
        fun u hu => hfin u (List.mem_cons_of_mem v hu)
      rw [List.map_cons, nansum_cons, ih ht, qdevsum_cons]
      cases v <;>
        simp_all [V.finOrNan, maskOnes, V.isNan, V.mul, V.sub, V.neg, V.add,
          V.denan] <;>
        ring

theorem nansum_maskOnes_devsq (l : List V) (m : ℚ)
    (hfin : ∀ v ∈ l, v.finOrNan = true) :
    nansumL (l.map (fun v =>
      V.mul (maskOnes v) (V.mul (V.sub v (V.fin m)) (V.sub v (V.fin m))))) =
      V.fin (qdevsum l m) := by
  induction l with
  | nil => rfl
  | cons v t ih =>
      have hv := hfin v (List.mem_cons_self v t)
      have ht : ∀ u ∈ t, u.finOrNan = true :=
        fun u hu => hfin u (List.mem_cons_of_mem v hu)
      rw [List.map_cons, nansum_cons, ih ht, qdevsum_cons]
      cases v <;>
        simp_all [V.finOrNan, maskOnes, V.isNan, V.mul, V.sub, V.neg, V.add,
          V.denan] <;>
        ring

theorem qdevsum_nonneg (l : List V) (m : ℚ) : 0 ≤ qdevsum l m := by
  induction l with
  | nil => simp [qdevsum_nil]
  | cons v t ih =>
      rw [qdevsum_cons]
      have h2 : 0 ≤ (match v with
          | V.fin q => (q - m) * (q - m) | _ => 0) := by
        cases v <;> simp <;> exact mul_self_nonneg _
      linarith

theorem qdevsum_pos {l : List V} {a m : ℚ} (ha : V.fin a ∈ l) (hne : a ≠ m) :
    0 < qdevsum l m := by
  induction l with
  | nil => simp at ha
  | cons v t ih =>
      rw [qdevsum_cons]
      rcases List.mem_cons.mp ha with h | h
      · subst h
        show 0 < (a - m) * (a - m) + qdevsum t m
        have h1 : 0 < (a - m) * (a - m) :=
          mul_self_pos.mpr (sub_ne_zero_of_ne hne)
        have h2 := qdevsum_nonneg t m
        linarith
      · have h1 := ih h
        have h2 : 0 ≤ (match v with
            | V.fin q => (q - m) * (q - m) | _ => 0) := by
          cases v <;> simp <;> exact mul_self_nonneg _
        linarith

theorem qdevsum_const {l : List V} {c : ℚ}
    (hall : ∀ v ∈ l, v.isNan = true ∨ v = V.fin c) :
    qdevsum l c = 0 := by
  induction l with
  | nil => rfl
  | cons v t ih =>
      rw [qdevsum_cons]
      have ht : ∀ u ∈ t, u.isNan = true ∨ u = V.fin c :=
        fun u hu => hall u (List.mem_cons_of_mem v hu)
      rcases hall v (List.mem_cons_self v t) with h | h
      · cases v <;> simp_all [V.isNan, ih ht]
      · subst h
        simp [ih ht]

theorem qsumValid_const {l : List V} {c : ℚ}
    (hall : ∀ v ∈ l, v.isNan = true ∨ v = V.fin c) :
    qsumValid l = (nValid l : ℚ) * c := by
  induction l with
  | nil => simp [qsumValid_nil, nValid_nil]
  | cons v t ih =>
      have ht : ∀ u ∈ t, u.isNan = true ∨ u = V.fin c :=
        fun u hu => hall u (List.mem_cons_of_mem v hu)
      rw [qsumValid_cons, nValid_cons, ih ht]
      rcases hall v (List.mem_cons_self v t) with h | h
      · cases v <;> simp_all [V.isNan]
      · subst h
        simp [V.isNan]
        push_cast
        ring

theorem natSqrtExact_sq (m : Nat) : natSqrtExact (m * m) = some m := by
  unfold natSqrtExact
  have hle : m ≤ m * m := by
    rcases Nat.eq_zero_or_pos m with h | h
    · omega
    · exact Nat.le_mul_of_pos_left m h
  have hsome : ((List.range (m * m + 1)).find?
      (fun r => r * r == m * m)).isSome = true := by
    rw [List.find?_isSome]
    exact ⟨m, by rw [List.mem_range]; omega, by simp⟩
  obtain ⟨r, hr⟩ := Option.isSome_iff_exists.mp hsome
  have hp : r * r = m * m := by simpa using List.find?_some hr
  have : r = m := Nat.mul_self_inj.mp hp
  rw [hr, this]

theorem ratSqrtExact_sq (q : ℚ) (hq : 0 ≤ q) :
    ratSqrtExact (q * q) = some q := by
  unfold ratSqrtExact
  have hnum : (q * q).num.natAbs = q.num.natAbs * q.num.natAbs := by
    rw [Rat.mul_self_num, Int.natAbs_mul]
  have hden : (q * q).den = q.den * q.den := Rat.mul_self_den q
  rw [hnum, hden, natSqrtExact_sq, natSqrtExact_sq]
  simp only [Option.bind_eq_bind, Option.some_bind]
  congr 1
  have hnn : (0 : ℤ) ≤ q.num := Rat.num_nonneg.mpr hq
  have h1 : ((q.num.natAbs : ℚ)) = (q.num : ℚ) := by
    rw [Int.cast_natAbs, abs_of_nonneg (by exact_mod_cast hnn)]
  rw [h1, Rat.num_div_den]

theorem sqrt_fin_sq (q : ℚ) (hq : 0 ≤ q) :
    V.sqrt (V.fin (q * q)) = V.fin q := by
  show (if q * q < 0 then V.nan
    else match ratSqrtExact (q * q) with
      | some r => V.fin r
      | none => V.irr) = V.fin q
  rw [if_neg (not_lt.mpr (mul_self_nonneg q)), ratSqrtExact_sq q hq]

/-! ## Full-reduction workhorse lemmas -/

theorem depOn_congr {f g : Ix → V} {S : List String}
    (h : ∀ ix, f ix = g ix) (hf : DepOn f S) : DepOn g S :=
  fun ix ix' ha => by rw [← h ix, ← h ix']; exact hf ix ix' ha

theorem niceW_shape {z wm : DataArray} {wq : Ix → ℚ} (n : NiceW z wm wq) :
    wm.shape = z.shape := by
  unfold DataArray.shape
  rw [n.dims]
  exact List.map_congr_left (fun d hd => n.lens d hd)

theorem niceW_axes {z wm : DataArray} {wq : Ix → ℚ} (n : NiceW z wm wq) :
    wm.axes = z.axes :=
  axes_congr n.dims (fun d hd => n.lens d (n.dims ▸ hd))

theorem niceW_cells {z wm : DataArray} {wq : Ix → ℚ} (n : NiceW z wm wq) :
    wm.cells = z.grid.map wm.data := by
  unfold DataArray.cells DataArray.grid
  rw [niceW_axes n]

theorem niceW_obsEq {z wm wm' : DataArray} {wq : Ix → ℚ}
    (n : NiceW z wm wq) (h : ObsEq wm' wm) : NiceW z wm' wq := by
  refine ⟨n.wf, n.ne, h.dims.trans n.dims, ?_, ?_, ?_⟩
  · intro d hd
    rw [h.len d (by rw [h.dims, n.dims]; exact hd)]
    exact n.lens d hd
  · intro ix
    rw [h.data ix]
    exact n.data ix
  · exact depOn_congr (fun ix => (h.data ix).symm) n.wdep

theorem niceW_nan {z wm : DataArray} {wq : Ix → ℚ} (n : NiceW z wm wq)
    {ix : Ix} (h : (z.data ix).isNan = true) : wm.data ix = V.nan := by
  rw [n.data ix, if_pos h]

theorem res_w_none {z wm : DataArray} {wq : Ix → ℚ} (n : NiceW z wm wq)
    (hchk : normChk wm z.dims = true) :
    _get_weights_and_dims z Option.none (some wm) (DimSpec.list z.dims) =
      Except.ok (whereB wm z.notnull, z.dims) ∧
    ObsEq (whereB wm z.notnull) wm := by
  have habs : ObsEq (whereB wm z.notnull) wm := by
    apply whereB_absorb
    · intro d hd
      rw [n.dims]
      exact hd
    · intro ix h
      exact niceW_nan n (by simpa [DataArray.notnull] using h)
  have hne' : ¬ (z.dims.isEmpty = true) := by
    simpa using n.ne
  have hsh : wm.shape = dimsShape z z.dims := by
    rw [dimsShape_self]
    exact niceW_shape n
  have hchk2 : normChk (whereB wm z.notnull) z.dims = true :=
    (normChk_congr habs z.dims).trans hchk
  refine ⟨?_, habs⟩
  unfold _get_weights_and_dims
  simp only [bind, Except.bind, pure, Except.pure, throw, throwThe,
    MonadExceptOf.throw]
  rw [resolvedDims_list_self]
  rw [if_neg hne', if_pos hsh, if_pos hchk2]

theorem band_self_mem {z : DataArray} {d : String}
    (hd : d ∈ ((z.notnull).band (z.notnull)).dims) : d ∈ z.dims := by
  simp only [BoolArr.band, DataArray.notnull] at hd
  rcases List.mem_append.mp hd with h | h
  · exact h
  · exact List.mem_of_mem_filter h

theorem res_w_self {z wm : DataArray} {wq : Ix → ℚ} (n : NiceW z wm wq)
    (hchk : normChk wm z.dims = true) :
    _get_weights_and_dims z (some z) (some wm) (DimSpec.list z.dims) =
      Except.ok (whereB wm ((z.notnull).band (z.notnull)), z.dims) ∧
    ObsEq (whereB wm ((z.notnull).band (z.notnull))) wm := by
  have habs : ObsEq (whereB wm ((z.notnull).band (z.notnull))) wm := by
    apply whereB_absorb
    · intro d hd
      rw [n.dims]
      exact band_self_mem hd
    · intro ix h
      simp only [BoolArr.band, DataArray.notnull, Bool.and_self] at h
      exact niceW_nan n (by simpa using h)
  have hne' : ¬ (z.dims.isEmpty = true) := by
    simpa using n.ne
  have hsh : wm.shape = dimsShape z z.dims := by
    rw [dimsShape_self]
    exact niceW_shape n
  have hchk2 : normChk (whereB wm ((z.notnull).band (z.notnull))) z.dims =
      true := (normChk_congr habs z.dims).trans hchk
  refine ⟨?_, habs⟩
  unfold _get_weights_and_dims
  simp only [bind, Except.bind, pure, Except.pure, throw, throwThe,
    MonadExceptOf.throw]
  rw [resolvedDims_list_self]
  rw [if_neg hne', if_pos hsh]
  simp [hchk2]

theorem cells_grid {a z : DataArray} (hdims : a.dims = z.dims)
    (hlen : ∀ d ∈ z.dims, a.len d = z.len d) :
    a.cells = z.grid.map a.data := by
  unfold DataArray.cells DataArray.grid
  rw [axes_congr hdims (fun d hd => hlen d (hdims ▸ hd))]

theorem normChk_nice {z wm : DataArray} {wq : Ix → ℚ} (n : NiceW z wm wq)
    {c : ℚ}
    (hsw : nansumL (z.grid.map wm.data) = V.fin c)
    (h1 : nansumL (z.grid.map (fun jx => V.div (wm.data jx) (V.fin c))) =
      V.fin 1) :
    normChk wm z.dims = true := by
  have hds : z.dims = wm.dims := n.dims.symm
  have hdepw : DepOn wm.data wm.dims := by
    rw [n.dims]
    exact n.wdep
  have hSdata : ∀ ix, (sumOver z.dims wm).data ix = V.fin c := by
    intro ix
    rw [sumOver_full_data hds hdepw ix, niceW_cells n, hsw]
  have hSdims : (sumOver z.dims wm).dims = [] := sumOver_full_dims hds
  set A := map2 V.div wm (sumOver z.dims wm) with hA
  have hAdims : A.dims = z.dims := by
    rw [hA]
    simp only [map2, hSdims, List.filter_nil, List.append_nil]
    exact n.dims
  have hAlen : ∀ d ∈ z.dims, A.len d = z.len d := by
    intro d hd
    rw [hA]
    simp only [map2]
    rw [if_pos (contains_of_mem (n.dims ▸ hd : d ∈ wm.dims))]
    exact n.lens d hd
  have hAdata : ∀ ix, A.data ix = V.div (wm.data ix) (V.fin c) := by
    intro ix
    rw [hA]
    simp only [map2]
    rw [hSdata ix]
  have hAdep : DepOn A.data A.dims := by
    rw [hAdims]
    exact depOn_congr (fun ix => (hAdata ix).symm)
      (depOn_post (fun v => V.div v (V.fin c)) n.wdep)
  have hchkdims : (sumOver z.dims A).dims = [] :=
    sumOver_full_dims hAdims.symm
  have hchkcells : (sumOver z.dims A).cells = [V.fin 1] := by
    rw [cells_dims_nil hchkdims]
    rw [sumOver_full_data hAdims.symm (hAdims ▸ hAdep) _]
    rw [cells_grid hAdims hAlen]
    rw [List.map_congr_left (fun jx _ => hAdata jx)]
    rw [h1]
  unfold normChk
  rw [← hA, hchkcells]
  simp

theorem cells_eq_grid_map (z : DataArray) : z.cells = z.grid.map z.data :=
  cells_grid rfl (fun _ _ => rfl)

theorem grid_map_comp (z : DataArray) (g : V → V) :
    z.grid.map (fun jx => g (z.data jx)) = z.cells.map g := by
  rw [cells_eq_grid_map, List.map_map]
  rfl

theorem niceW_data_maskOnes {z wm : DataArray} (n : NiceW z wm (fun _ => 1)) :
    ∀ jx, wm.data jx = maskOnes (z.data jx) := by
  intro jx
  rw [n.data jx]
  rfl

theorem normChk_ones {z wm : DataArray} (n : NiceW z wm (fun _ => 1))
    (hnv : nValid z.cells ≠ 0) : normChk wm z.dims = true := by
  have hcast : ((nValid z.cells : ℚ)) ≠ 0 := by
    exact_mod_cast hnv
  apply normChk_nice n (c := (nValid z.cells : ℚ))
  · rw [List.map_congr_left (fun jx _ => niceW_data_maskOnes n jx)]
    rw [grid_map_comp z maskOnes]
    exact nansum_maskOnes z.cells
  · have hdiv : ∀ jx : Ix, V.div (wm.data jx) (V.fin (nValid z.cells : ℚ)) =
        V.div (maskOnes (z.data jx)) (V.fin (nValid z.cells : ℚ)) :=
      fun jx => by rw [niceW_data_maskOnes n jx]
    rw [List.map_congr_left (fun jx _ => hdiv jx)]
    rw [grid_map_comp z (fun v => V.div (maskOnes v)
      (V.fin (nValid z.cells : ℚ)))]
    rw [nansum_maskOnes_div z.cells _ hcast]
    rw [div_self hcast]

theorem niceW_default_none (z : DataArray) (hwf : Wf z) (hne : z.dims ≠ []) :
    NiceW z (whereB (onesArr z.dims (dimsShape z z.dims)) z.notnull)
      (fun _ => 1) := by
  have hdims : (whereB (onesArr z.dims (dimsShape z z.dims))
      z.notnull).dims = z.dims := by
    simp only [whereB, onesArr, DataArray.notnull]
    rw [filter_not_contains_self, List.append_nil]
  have hdata : ∀ ix, (whereB (onesArr z.dims (dimsShape z z.dims))
      z.notnull).data ix =
      if (z.data ix).isNan then V.nan else V.fin 1 := by
    intro ix
    simp only [whereB, onesArr, DataArray.notnull]
    by_cases h : (z.data ix).isNan <;> simp [h]
  refine ⟨hwf, hne, hdims, ?_, hdata, ?_⟩
  · intro d hd
    simp only [whereB]
    rw [if_pos (contains_of_mem (show d ∈ (onesArr z.dims
      (dimsShape z z.dims)).dims from hd))]
    exact onesArr_len hd
  · exact depOn_congr (fun ix => (hdata ix).symm)
      (depOn_congr (fun ix => rfl)
        (depOn_post (fun v => if v.isNan then V.nan else V.fin 1) hwf.dep))

theorem niceW_default_self (z : DataArray) (hwf : Wf z) (hne : z.dims ≠ []) :
    NiceW z (whereB (onesArr z.dims (dimsShape z z.dims))
      ((z.notnull).band (z.notnull))) (fun _ => 1) := by
  have hdims : (whereB (onesArr z.dims (dimsShape z z.dims))
      ((z.notnull).band (z.notnull))).dims = z.dims := by
    simp only [whereB, onesArr, BoolArr.band, DataArray.notnull]
    rw [filter_not_contains_self]
    rw [List.append_nil, filter_not_contains_self, List.append_nil]
  have hdata : ∀ ix, (whereB (onesArr z.dims (dimsShape z z.dims))
      ((z.notnull).band (z.notnull))).data ix =
      if (z.data ix).isNan then V.nan else V.fin 1 := by
    intro ix
    simp only [whereB, onesArr, BoolArr.band, DataArray.notnull]
    by_cases h : (z.data ix).isNan <;> simp [h]
  refine ⟨hwf, hne, hdims, ?_, hdata, ?_⟩
  · intro d hd
    simp only [whereB]
    rw [if_pos (contains_of_mem (show d ∈ (onesArr z.dims
      (dimsShape z z.dims)).dims from hd))]
    exact onesArr_len hd
  · exact depOn_congr (fun ix => (hdata ix).symm)
      (depOn_post (fun v => if v.isNan then V.nan else V.fin 1) hwf.dep)

theorem res_default_none {z : DataArray} (hwf : Wf z) (hne : z.dims ≠ [])
    {dim : DimSpec} (hdim : resolvedDims z dim = z.dims)
    (hchk : normChk (whereB (onesArr z.dims (dimsShape z z.dims))
      z.notnull) z.dims = true) :
    _get_weights_and_dims z Option.none Option.none dim =
      Except.ok (whereB (onesArr z.dims (dimsShape z z.dims)) z.notnull,
        z.dims) := by
  have hne' : ¬ (z.dims.isEmpty = true) := by simpa using hne
  unfold _get_weights_and_dims
  simp only [bind, Except.bind, pure, Except.pure, throw, throwThe,
    MonadExceptOf.throw]
  rw [hdim]
  rw [if_neg hne', if_pos hchk]

theorem res_default_self {z : DataArray} (hwf : Wf z) (hne : z.dims ≠ [])
    {dim : DimSpec} (hdim : resolvedDims z dim = z.dims)
    (hchk : normChk (whereB (onesArr z.dims (dimsShape z z.dims))
      ((z.notnull).band (z.notnull))) z.dims = true) :
    _get_weights_and_dims z (some z) Option.none dim =
      Except.ok (whereB (onesArr z.dims (dimsShape z z.dims))
        ((z.notnull).band (z.notnull)), z.dims) := by
  have hne' : ¬ (z.dims.isEmpty = true) := by simpa using hne
  unfold _get_weights_and_dims
  simp only [bind, Except.bind, pure, Except.pure, throw, throwThe,
    MonadExceptOf.throw]
  rw [hdim]
  rw [if_neg hne']
  simp [hchk]

theorem sum_w {z wm : DataArray} {wq : Ix → ℚ} (n : NiceW z wm wq)
    (hchk : normChk wm z.dims = true) :
    ∃ S : DataArray,
      (weighted_sum z (some wm) (DimSpec.list z.dims)).2 = Except.ok S ∧
      S.dims = [] ∧ S.attrs = z.attrs ∧ S.encoding = z.encoding ∧
      ∀ ix, S.data ix =
        nansumL (z.grid.map (fun jx => V.mul (z.data jx) (wm.data jx))) := by
  obtain ⟨hres, habs⟩ := res_w_none n hchk
  have n2 : NiceW z (whereB wm z.notnull) wq := niceW_obsEq n habs
  set wm2 := whereB wm z.notnull with hwm2
  set A := map2 V.mul z wm2 with hA
  have hAdims : A.dims = z.dims := by
    rw [hA]
    simp only [map2]
    rw [n2.dims, filter_not_contains_self, List.append_nil]
  have hAlen : ∀ d ∈ z.dims, A.len d = z.len d := by
    intro d hd
    rw [hA]
    simp only [map2]
    rw [if_pos (contains_of_mem hd)]
  have hAdep : DepOn A.data A.dims := by
    rw [hAdims]
    exact depOn_comb2 V.mul n.wf.dep n2.wdep
  have hsum_dims : (sumOver z.dims A).dims = [] := sumOver_full_dims hAdims.symm
  have hsum_data : ∀ ix, (sumOver z.dims A).data ix =
      nansumL (z.grid.map (fun jx => V.mul (z.data jx) (wm.data jx))) := by
    intro ix
    rw [sumOver_full_data hAdims.symm (hAdims ▸ hAdep) ix]
    rw [cells_grid hAdims hAlen]
    apply congrArg
    apply List.map_congr_left
    intro jx _
    show V.mul (z.data jx) (wm2.data jx) = V.mul (z.data jx) (wm.data jx)
    rw [habs.data jx]
  refine ⟨update_attrs (sumOver z.dims A) (get_original_attrs z), ?_, ?_, rfl,
    rfl, ?_⟩
  · unfold weighted_sum
    simp only [bind, Except.bind, pure, Except.pure]
    rw [hres]
  · exact hsum_dims
  · exact hsum_data

theorem mean_w {z wm : DataArray} {wq : Ix → ℚ} (n : NiceW z wm wq)
    (hchk : normChk wm z.dims = true) :
    ∃ M : DataArray,
      (weighted_mean z (some wm) (DimSpec.list z.dims)).2 = Except.ok M ∧
      M.dims = [] ∧ M.attrs = z.attrs ∧ M.encoding = z.encoding ∧
      ∀ ix, M.data ix = V.div
        (nansumL (z.grid.map (fun jx => V.mul (z.data jx) (wm.data jx))))
        (nansumL (z.grid.map wm.data)) := by
  obtain ⟨hres, habs⟩ := res_w_none n hchk
  have n2 : NiceW z (whereB wm z.notnull) wq := niceW_obsEq n habs
  set wm2 := whereB wm z.notnull with hwm2
  have hchk2 : normChk wm2 z.dims = true :=
    (normChk_congr habs z.dims).trans hchk
  obtain ⟨S, hS, hSdims, _, _, hSdata⟩ := sum_w n2 hchk2
  have hSdata' : ∀ ix, S.data ix =
      nansumL (z.grid.map (fun jx => V.mul (z.data jx) (wm.data jx))) := by
    intro ix
    rw [hSdata ix]
    apply congrArg
    apply List.map_congr_left
    intro jx _
    show V.mul (z.data jx) (wm2.data jx) = V.mul (z.data jx) (wm.data jx)
    rw [habs.data jx]
  have hS2dims : (sumOver z.dims wm2).dims = [] :=
    sumOver_full_dims n2.dims.symm
  have hS2data : ∀ ix, (sumOver z.dims wm2).data ix =
      nansumL (z.grid.map wm.data) := by
    intro ix
    rw [sumOver_full_data n2.dims.symm (n2.dims ▸ n2.wdep) ix]
    rw [niceW_cells n2]
    apply congrArg
    exact List.map_congr_left (fun jx _ => habs.data jx)
  refine ⟨update_attrs (map2 V.div S (sumOver z.dims wm2))
    (get_original_attrs z), ?_, ?_, rfl, rfl, ?_⟩
  · unfold weighted_mean
    simp only [bind, Except.bind, pure, Except.pure]
    rw [hres]
    simp only []
    rw [hS]
  · show (map2 V.div S (sumOver z.dims wm2)).dims = []
    simp only [map2]
    rw [hSdims, hS2dims]
    rfl
  · intro ix
    show V.div (S.data ix) ((sumOver z.dims wm2).data ix) = _
    rw [hSdata' ix, hS2data ix]

theorem grid_wsum_ones {z wm : DataArray} (n : NiceW z wm (fun _ => 1)) :
    nansumL (z.grid.map wm.data) = V.fin (nValid z.cells) := by
  rw [List.map_congr_left (fun jx _ => niceW_data_maskOnes n jx),
    grid_map_comp z maskOnes]
  exact nansum_maskOnes z.cells

theorem grid_xwsum_ones {z wm : DataArray} (n : NiceW z wm (fun _ => 1))
    (hfin : ∀ v ∈ z.cells, v.finOrNan = true) :
    nansumL (z.grid.map (fun jx => V.mul (z.data jx) (wm.data jx))) =
      V.fin (qsumValid z.cells) := by
  have h : ∀ jx : Ix, V.mul (z.data jx) (wm.data jx) =
      V.mul (z.data jx) (maskOnes (z.data jx)) :=
    fun jx => by rw [niceW_data_maskOnes n jx]
  rw [List.map_congr_left (fun jx _ => h jx),
    grid_map_comp z (fun v => V.mul v (maskOnes v))]
  exact nansum_mul_maskOnes z.cells hfin

theorem mean_ones {z wm : DataArray} (n : NiceW z wm (fun _ => 1))
    (hfin : ∀ v ∈ z.cells, v.finOrNan = true) (hnv : nValid z.cells ≠ 0) :
    ∃ M : DataArray,
      (weighted_mean z (some wm) (DimSpec.list z.dims)).2 = Except.ok M ∧
      M.dims = [] ∧ M.attrs = z.attrs ∧ M.encoding = z.encoding ∧
      ∀ ix, M.data ix =
        V.fin (qsumValid z.cells / (nValid z.cells : ℚ)) := by
  obtain ⟨M, h1, h2, h3, h4, h5⟩ := mean_w n (normChk_ones n hnv)
  refine ⟨M, h1, h2, h3, h4, ?_⟩
  intro ix
  rw [h5 ix, grid_xwsum_ones n hfin, grid_wsum_ones n]
  have hc : ((nValid z.cells : ℚ)) ≠ 0 := by exact_mod_cast hnv
  simp [V.div, hc]

theorem devsq_isNan (v : V) (m : ℚ) :
    (V.mul (V.sub v (V.fin m)) (V.sub v (V.fin m))).isNan = v.isNan := by
  cases v <;> simp [V.sub, V.neg, V.add, V.mul, V.isNan]

theorem nValid_map_preserve (g : V → V) (hg : ∀ v, (g v).isNan = v.isNan) :
    ∀ l : List V, nValid (l.map g) = nValid l := by
  intro l
  induction l with
  | nil => rfl
  | cons v t ih =>
      rw [List.map_cons, nValid_cons, nValid_cons, hg v, ih]

theorem qsumValid_devmap (m : ℚ) :
    ∀ l : List V, (∀ v ∈ l, v.finOrNan = true) →
      qsumValid (l.map (fun v =>
        V.mul (V.sub v (V.fin m)) (V.sub v (V.fin m)))) = qdevsum l m := by
  intro l
  induction l with
  | nil => intro _; rfl
  | cons v t ih =>
      intro hfin
      have hv := hfin v (List.mem_cons_self v t)
      have ht : ∀ u ∈ t, u.finOrNan = true :=
        fun u hu => hfin u (List.mem_cons_of_mem v hu)
      rw [List.map_cons, qsumValid_cons, qdevsum_cons, ih ht]
      cases v <;> simp_all [V.finOrNan, V.sub, V.neg, V.add, V.mul] <;> ring

theorem finOrNan_devmap (m : ℚ) (l : List V)
    (hfin : ∀ v ∈ l, v.finOrNan = true) :
    ∀ u ∈ l.map (fun v =>
      V.mul (V.sub v (V.fin m)) (V.sub v (V.fin m))), u.finOrNan = true := by
  intro u hu
  obtain ⟨v, hv, rfl⟩ := List.mem_map.mp hu
  have := hfin v hv
  cases v <;> simp_all [V.finOrNan, V.sub, V.neg, V.add, V.mul]

theorem cov_self {z wm : DataArray} (n : NiceW z wm (fun _ => 1))
    (hfin : ∀ v ∈ z.cells, v.finOrNan = true) (hnv : nValid z.cells ≠ 0)
    (hchk : normChk wm z.dims = true) :
    ∃ C : DataArray,
      (weighted_cov z z (some wm) (DimSpec.list z.dims)).2 = Except.ok C ∧
      C.dims = [] ∧
      ∀ ix, C.data ix = V.fin (qdevsum z.cells
        (qsumValid z.cells / (nValid z.cells : ℚ)) /
          (nValid z.cells : ℚ)) := by
  obtain ⟨hres, habs⟩ := res_w_self n hchk
  set wm2 := whereB wm ((z.notnull).band (z.notnull)) with hwm2def
  have n2 : NiceW z wm2 (fun _ => 1) := niceW_obsEq n habs
  have hchk2 : normChk wm2 z.dims = true :=
    (normChk_congr habs z.dims).trans hchk
  obtain ⟨M, hM, hMdims, hMa, hMe, hMdata⟩ := mean_ones n2 hfin hnv
  set m := qsumValid z.cells / (nValid z.cells : ℚ) with hmdef
  set devx := map2 V.sub z M with hdevxdef
  have hdevxdims : devx.dims = z.dims := by
    rw [hdevxdef]
    simp only [map2]
    rw [hMdims]
    simp only [List.filter_nil, List.append_nil]
  have hdevxlen : ∀ d ∈ z.dims, devx.len d = z.len d := by
    intro d hd
    rw [hdevxdef]
    simp only [map2]
    rw [if_pos (contains_of_mem hd)]
  have hdevxdata : ∀ ix, devx.data ix =
      V.sub (z.data ix) (V.fin m) := by
    intro ix
    rw [hdevxdef]
    simp only [map2]
    rw [hMdata ix]
  set dev := map2 V.mul devx devx with hdevdef
  have hdevdims : dev.dims = z.dims := by
    rw [hdevdef]
    simp only [map2]
    rw [hdevxdims, filter_not_contains_self, List.append_nil]
  have hdevlen : ∀ d ∈ z.dims, dev.len d = z.len d := by
    intro d hd
    rw [hdevdef]
    simp only [map2]
    rw [if_pos (contains_of_mem (hdevxdims ▸ hd : d ∈ devx.dims))]
    exact hdevxlen d hd
  have hdevdata : ∀ ix, dev.data ix =
      V.mul (V.sub (z.data ix) (V.fin m)) (V.sub (z.data ix) (V.fin m)) := by
    intro ix
    rw [hdevdef]
    simp only [map2]
    rw [hdevxdata ix]
  have hdevcells : dev.cells = z.cells.map (fun v =>
      V.mul (V.sub v (V.fin m)) (V.sub v (V.fin m))) :=
    cells_image _ hdevdims hdevlen hdevdata
  have hdevwf : Wf dev := by
    refine ⟨?_, ?_⟩
    · rw [hdevdims]
      exact n.wf.nodup
    · rw [hdevdims]
      exact depOn_congr (fun ix => (hdevdata ix).symm)
        (depOn_post (fun v =>
          V.mul (V.sub v (V.fin m)) (V.sub v (V.fin m))) n.wf.dep)
  have ndev : NiceW dev wm2 (fun _ => 1) := by
    refine ⟨hdevwf, ?_, ?_, ?_, ?_, ?_⟩
    · rw [hdevdims]
      exact n.ne
    · rw [hdevdims]
      exact n2.dims
    · intro d hd
      rw [hdevdims] at hd
      rw [n2.lens d hd, hdevlen d hd]
    · intro ix
      rw [n2.data ix, hdevdata ix, devsq_isNan]
    · rw [hdevdims]
      exact n2.wdep
  have hnvdev : nValid dev.cells ≠ 0 := by
    rw [hdevcells,
      nValid_map_preserve _ (fun v => devsq_isNan v m) z.cells]
    exact hnv
  have hfindev : ∀ v ∈ dev.cells, v.finOrNan = true := by
    rw [hdevcells]
    exact finOrNan_devmap m z.cells hfin
  obtain ⟨C, hC, hCdims, hCa, hCe, hCdata⟩ := mean_ones ndev hfindev hnvdev
  rw [hdevdims] at hC
  refine ⟨C, ?_, hCdims, ?_⟩
  · unfold weighted_cov
    simp only [bind, Except.bind, pure, Except.pure]
    rw [hres]
    simp only []
    rw [hM]
    simp only []
    rw [← hdevxdef, ← hdevdef]
    rw [hC]
  · intro ix
    rw [hCdata ix, hdevcells]
    rw [qsumValid_devmap m z.cells hfin]
    rw [nValid_map_preserve _ (fun v => devsq_isNan v m) z.cells]

theorem corr_self {z : DataArray} (hwf : Wf z) (hne : z.dims ≠ [])
    (hfin : ∀ v ∈ z.cells, v.finOrNan = true)
    (hnv : nValid z.cells ≠ 0) :
    ∃ R : DataArray,
      (weighted_corr z z Option.none DimSpec.omitted).2 = Except.ok R ∧
      R.dims = [] ∧
      ∀ ix, R.data ix =
        V.div (V.fin (qdevsum z.cells
            (qsumValid z.cells / (nValid z.cells : ℚ)) /
            (nValid z.cells : ℚ)))
          (V.sqrt (V.fin ((qdevsum z.cells
            (qsumValid z.cells / (nValid z.cells : ℚ)) /
            (nValid z.cells : ℚ)) *
            (qdevsum z.cells
            (qsumValid z.cells / (nValid z.cells : ℚ)) /
            (nValid z.cells : ℚ))))) := by
  have n0 := niceW_default_self z hwf hne
  have hchk0 := normChk_ones n0 hnv
  have hres := res_default_self hwf hne (resolvedDims_omitted z) hchk0
  obtain ⟨C, hC, hCdims, hCdata⟩ := cov_self n0 hfin hnv hchk0
  refine ⟨map2 V.div C (map1 V.sqrt (map2 V.mul C C)), ?_, ?_, ?_⟩
  · unfold weighted_corr
    simp only [bind, Except.bind, pure, Except.pure]
    rw [hres]
    simp only []
    rw [hC]
  · simp only [map2, map1]
    rw [hCdims]
    rfl
  · intro ix
    show V.div (C.data ix) (V.sqrt (V.mul (C.data ix) (C.data ix))) = _
    rw [hCdata ix]
    rfl

/-- C9: for every well-formed array with finite-or-missing cells and at
least two distinct valid (finite) values, `weighted_corr(x, x)` with
default weights over all dimensions returns the single cell `1.0`
exactly. -/
theorem claim_C9_self_corr_one (z : DataArray) (hwf : Wf z)
    (hne : z.dims ≠ [])
    (hfin : ∀ v ∈ z.cells, v.finOrNan = true)
    {a b : ℚ} (ha : V.fin a ∈ z.cells) (hb : V.fin b ∈ z.cells)
    (hab : a ≠ b) :
    ∃ R : DataArray,
      (weighted_corr z z Option.none DimSpec.omitted).2 = Except.ok R ∧
      R.dims = [] ∧ R.cells = [V.fin 1] := by
  have hmemf : V.fin a ∈ z.cells.filter (fun v => !v.isNan) :=
    List.mem_filter.mpr ⟨ha, by simp [V.isNan]⟩
  have hnv : nValid z.cells ≠ 0 :=
    Nat.pos_iff_ne_zero.mp (List.length_pos_of_mem hmemf)
  obtain ⟨R, hR, hRdims, hRdata⟩ := corr_self hwf hne hfin hnv
  set m := qsumValid z.cells / (nValid z.cells : ℚ) with hm
  have hdevpos : 0 < qdevsum z.cells m := by
    rcases eq_or_ne a m with hae | hae
    · have hbe : b ≠ m := by
        intro hbm
        exact hab (hae.trans hbm.symm)
      exact qdevsum_pos hb hbe
    · exact qdevsum_pos ha hae
  have hnpos : (0 : ℚ) < (nValid z.cells : ℚ) := by
    exact_mod_cast Nat.pos_iff_ne_zero.mpr hnv
  have hvarpos : 0 < qdevsum z.cells m / (nValid z.cells : ℚ) :=
    div_pos hdevpos hnpos
  refine ⟨R, hR, hRdims, ?_⟩
  rw [cells_dims_nil hRdims, hRdata _]
  rw [sqrt_fin_sq _ hvarpos.le]
  simp [V.div, ne_of_gt hvarpos, div_self (ne_of_gt hvarpos)]

theorem nansum_map_nan (l : List Ix) :
    nansumL (l.map (fun _ => V.nan)) = V.fin 0 := by
  induction l with
  | nil => rfl
  | cons a t ih =>
      rw [List.map_cons, nansum_cons, ih]
      simp [V.denan, V.add]

theorem nansum_map_const_zero (l : List Ix) :
    nansumL (l.map (fun _ => V.fin 0)) = V.fin 0 := by
  induction l with
  | nil => rfl
  | cons a t ih =>
      rw [List.map_cons, nansum_cons, ih]
      simp [V.denan, V.add]

theorem normChk_nice_val {z wm : DataArray} {wq : Ix → ℚ} (n : NiceW z wm wq)
    {c : ℚ} {v0 : V}
    (hsw : nansumL (z.grid.map wm.data) = V.fin c)
    (h1 : nansumL (z.grid.map (fun jx => V.div (wm.data jx) (V.fin c))) = v0) :
    normChk wm z.dims = (v0 == V.fin 1) := by
  have hds : z.dims = wm.dims := n.dims.symm
  have hdepw : DepOn wm.data wm.dims := by
    rw [n.dims]
    exact n.wdep
  have hSdata : ∀ ix, (sumOver z.dims wm).data ix = V.fin c := by
    intro ix
    rw [sumOver_full_data hds hdepw ix, niceW_cells n, hsw]
  have hSdims : (sumOver z.dims wm).dims = [] := sumOver_full_dims hds
  set A := map2 V.div wm (sumOver z.dims wm) with hA
  have hAdims : A.dims = z.dims := by
    rw [hA]
    simp only [map2, hSdims, List.filter_nil, List.append_nil]
    exact n.dims
  have hAlen : ∀ d ∈ z.dims, A.len d = z.len d := by
    intro d hd
    rw [hA]
    simp only [map2]
    rw [if_pos (contains_of_mem (n.dims ▸ hd : d ∈ wm.dims))]
    exact n.lens d hd
  have hAdata : ∀ ix, A.data ix = V.div (wm.data ix) (V.fin c) := by
    intro ix
    rw [hA]
    simp only [map2]
    rw [hSdata ix]
  have hAdep : DepOn A.data A.dims := by
    rw [hAdims]
    exact depOn_congr (fun ix => (hAdata ix).symm)
      (depOn_post (fun v => V.div v (V.fin c)) n.wdep)
  have hchkdims : (sumOver z.dims A).dims = [] :=
    sumOver_full_dims hAdims.symm
  have hchkcells : (sumOver z.dims A).cells = [v0] := by
    rw [cells_dims_nil hchkdims]
    rw [sumOver_full_data hAdims.symm (hAdims ▸ hAdep) _]
    rw [cells_grid hAdims hAlen]
    rw [List.map_congr_left (fun jx _ => hAdata jx)]
    rw [h1]
  unfold normChk
  rw [← hA, hchkcells]
  simp

theorem nansum_maskZeros (l : List V) :
    nansumL (l.map (fun v => if v.isNan then V.nan else V.fin 0)) =
      V.fin 0 := by
  induction l with
  | nil => rfl
  | cons v t ih =>
      rw [List.map_cons, nansum_cons, ih]
      by_cases h : v.isNan <;> simp [h, V.denan, V.add]

theorem mean_zero_weights {z w : DataArray} (hwf : Wf z) (hne : z.dims ≠ [])
    (hdims : w.dims = z.dims) (hlen : ∀ d ∈ z.dims, w.len d = z.len d)
    (hdata : ∀ ix, w.data ix = V.fin 0) :
    (weighted_mean z (some w) DimSpec.omitted).2 =
      Except.error Err.normalizationError := by
  apply weighted_mean_err
  set wm := whereB w z.notnull with hwm
  have hwmdims : wm.dims = z.dims := by
    rw [hwm]
    simp only [whereB, DataArray.notnull]
    rw [hdims, filter_not_contains_self, List.append_nil]
  have hwmdata : ∀ ix, wm.data ix =
      if (z.data ix).isNan then V.nan else V.fin 0 := by
    intro ix
    rw [hwm]
    simp only [whereB, DataArray.notnull]
    by_cases h : (z.data ix).isNan <;> simp [h, hdata ix]
  have nzero : NiceW z wm (fun _ => 0) := by
    refine ⟨hwf, hne, hwmdims, ?_, hwmdata, ?_⟩
    · intro d hd
      rw [hwm]
      simp only [whereB]
      rw [if_pos (contains_of_mem (hdims ▸ hd : d ∈ w.dims))]
      exact hlen d hd
    · exact depOn_congr (fun ix => (hwmdata ix).symm)
        (depOn_post (fun v => if v.isNan then V.nan else V.fin 0) hwf.dep)
  have hsw : nansumL (z.grid.map wm.data) = V.fin 0 := by
    rw [List.map_congr_left (fun jx _ => hwmdata jx)]
    rw [grid_map_comp z (fun v => if v.isNan then V.nan else V.fin 0)]
    exact nansum_maskZeros z.cells
  have h1 : nansumL (z.grid.map
      (fun jx => V.div (wm.data jx) (V.fin 0))) = V.fin 0 := by
    have hptw : ∀ jx : Ix, V.div (wm.data jx) (V.fin 0) = V.nan := by
      intro jx
      rw [hwmdata jx]
      by_cases h : (z.data jx).isNan <;> simp [h, V.div]
    rw [List.map_congr_left (fun jx _ => hptw jx)]
    exact nansum_map_nan z.grid
  have hfalse : normChk wm z.dims = false := by
    rw [normChk_nice_val nzero hsw h1]
    decide
  have hne' : ¬ (z.dims.isEmpty = true) := by simpa using hne
  have hsh : w.shape = dimsShape z z.dims := by
    rw [dimsShape_self]
    unfold DataArray.shape
    rw [hdims]
    exact List.map_congr_left (fun d hd => hlen d hd)
  unfold _get_weights_and_dims
  simp only [bind, Except.bind, pure, Except.pure, throw, throwThe,
    MonadExceptOf.throw]
  rw [resolvedDims_omitted]
  rw [if_neg hne', if_pos hsh, if_neg (by rw [← hwm] at *; simp [hfalse])]

theorem std_eval {z : DataArray} (hwf : Wf z) (hne : z.dims ≠ [])
    (hfin : ∀ v ∈ z.cells, v.finOrNan = true) (hnv : nValid z.cells ≠ 0)
    (ddof : Int) :
    ∃ S : DataArray,
      (weighted_std z Option.none DimSpec.omitted ddof).2 = Except.ok S ∧
      S.dims = [] ∧
      ∀ ix, S.data ix = V.sqrt (V.div
        (V.fin (qdevsum z.cells (qsumValid z.cells / (nValid z.cells : ℚ))))
        (V.sub (V.fin (nValid z.cells : ℚ)) (V.fin (ddof : ℚ)))) := by
  have n0 := niceW_default_none z hwf hne
  have hchk0 := normChk_ones n0 hnv
  have hres := res_default_none hwf hne (resolvedDims_omitted z) hchk0
  set wm0 := whereB (onesArr z.dims (dimsShape z z.dims)) z.notnull with hwm0
  obtain ⟨M, hM, hMdims, hMa, hMe, hMdata⟩ := mean_ones n0 hfin hnv
  set m := qsumValid z.cells / (nValid z.cells : ℚ) with hmdef
  set devx := map2 V.sub z M with hdevxdef
  have hdevxdims : devx.dims = z.dims := by
    rw [hdevxdef]
    simp only [map2]
    rw [hMdims]
    simp only [List.filter_nil, List.append_nil]
  have hdevxlen : ∀ d ∈ z.dims, devx.len d = z.len d := by
    intro d hd
    rw [hdevxdef]
    simp only [map2]
    rw [if_pos (contains_of_mem hd)]
  have hdevxdata : ∀ ix, devx.data ix = V.sub (z.data ix) (V.fin m) := by
    intro ix
    rw [hdevxdef]
    simp only [map2]
    rw [hMdata ix]
  set sq := map1 (fun v => V.mul v v) devx with hsqdef
  have hsqdims : sq.dims = z.dims := by
    rw [hsqdef]
    simp only [map1]
    exact hdevxdims
  have hsqdata : ∀ ix, sq.data ix =
      V.mul (V.sub (z.data ix) (V.fin m)) (V.sub (z.data ix) (V.fin m)) := by
    intro ix
    rw [hsqdef]
    simp only [map1]
    rw [hdevxdata ix]
  set B := map2 V.mul wm0 sq with hBdef
  have hBdims : B.dims = z.dims := by
    rw [hBdef]
    simp only [map2]
    rw [n0.dims, hsqdims, filter_not_contains_self, List.append_nil]
  have hBlen : ∀ d ∈ z.dims, B.len d = z.len d := by
    intro d hd
    rw [hBdef]
    simp only [map2]
    rw [if_pos (contains_of_mem (n0.dims ▸ hd : d ∈ wm0.dims))]
    exact n0.lens d hd
  have hBdata : ∀ ix, B.data ix =
      V.mul (maskOnes (z.data ix))
        (V.mul (V.sub (z.data ix) (V.fin m)) (V.sub (z.data ix) (V.fin m))) := by
    intro ix
    rw [hBdef]
    simp only [map2]
    rw [hsqdata ix, niceW_data_maskOnes n0 ix]
  have hBdep : DepOn B.data B.dims := by
    rw [hBdims]
    exact depOn_congr (fun ix => (hBdata ix).symm)
      (depOn_post (fun v => V.mul (maskOnes v)
        (V.mul (V.sub v (V.fin m)) (V.sub v (V.fin m)))) hwf.dep)
  have hnumdata : ∀ ix, (sumOver z.dims B).data ix =
      V.fin (qdevsum z.cells m) := by
    intro ix
    rw [sumOver_full_data hBdims.symm (hBdims ▸ hBdep) ix]
    rw [cells_grid hBdims hBlen]
    rw [List.map_congr_left (fun jx _ => hBdata jx)]
    rw [grid_map_comp z (fun v => V.mul (maskOnes v)
      (V.mul (V.sub v (V.fin m)) (V.sub v (V.fin m))))]
    exact nansum_maskOnes_devsq z.cells m hfin
  have hnumdims : (sumOver z.dims B).dims = [] := sumOver_full_dims hBdims.symm
  have hSwdata : ∀ ix, (sumOver z.dims wm0).data ix =
      V.fin (nValid z.cells : ℚ) := by
    intro ix
    rw [sumOver_full_data n0.dims.symm (n0.dims ▸ n0.wdep) ix]
    rw [niceW_cells n0]
    exact grid_wsum_ones n0
  have hSwdims : (sumOver z.dims wm0).dims = [] :=
    sumOver_full_dims n0.dims.symm
  refine ⟨update_attrs (map1 V.sqrt (map2 V.div (sumOver z.dims B)
    (map1 (fun v => V.sub v (V.fin (ddof : ℚ))) (sumOver z.dims wm0))))
    (get_original_attrs z), ?_, ?_, ?_⟩
  · unfold weighted_std
    simp only [bind, Except.bind, pure, Except.pure]
    rw [hres]
    simp only []
    rw [hM]
  · show (map1 V.sqrt (map2 V.div (sumOver z.dims B)
      (map1 (fun v => V.sub v (V.fin (ddof : ℚ)))
        (sumOver z.dims wm0)))).dims = []
    simp only [map1, map2]
    rw [hnumdims, hSwdims]
    rfl
  · intro ix
    show V.sqrt (V.div ((sumOver z.dims B).data ix)
      (V.sub ((sumOver z.dims wm0).data ix) (V.fin (ddof : ℚ)))) = _
    rw [hnumdata ix, hSwdata ix]

/-- C3 (amended): non-finite outcomes inside the arithmetic are
propagated, but a zero masked weight total is not one of them — it trips
the normalization assertion instead.  Precisely: (1) all-zero supplied
weights make any full-reduction `weighted_mean` call abort with the
normalization error before any statistic is computed; (2) `weighted_std`
with `ddof` equal to the masked weight total (so the denominator
`sum(w) - ddof` is zero) returns a non-finite value (NaN when the
weighted squared deviation is also zero, `+inf` otherwise) without
raising; (3) `weighted_corr(x, x)` on an array of zero variance returns
NaN without raising. -/
theorem claim_C3_nonfinite_behavior :
    (∀ z w : DataArray, Wf z → z.dims ≠ [] →
      w.dims = z.dims → (∀ d ∈ z.dims, w.len d = z.len d) →
      (∀ ix, w.data ix = V.fin 0) →
      (weighted_mean z (some w) DimSpec.omitted).2 =
        Except.error Err.normalizationError) ∧
    (∀ z : DataArray, Wf z → z.dims ≠ [] →
      (∀ v ∈ z.cells, v.finOrNan = true) → nValid z.cells ≠ 0 →
      ∃ S : DataArray,
        (weighted_std z Option.none DimSpec.omitted
          ((nValid z.cells : Int))).2 = Except.ok S ∧ S.dims = [] ∧
        ∀ ix, (S.data ix).nonfinite = true) ∧
    (∀ (z : DataArray) (c : ℚ), Wf z → z.dims ≠ [] →
      (∀ v ∈ z.cells, v.isNan = true ∨ v = V.fin c) →
      nValid z.cells ≠ 0 →
      ∃ R : DataArray,
        (weighted_corr z z Option.none DimSpec.omitted).2 = Except.ok R ∧
        R.dims = [] ∧ ∀ ix, R.data ix = V.nan) := by
  refine ⟨?_, ?_, ?_⟩
  · intro z w hwf hne hdims hlen hdata
    exact mean_zero_weights hwf hne hdims hlen hdata
  · intro z hwf hne hfin hnv
    obtain ⟨S, hS, hSdims, hSdata⟩ :=
      std_eval hwf hne hfin hnv ((nValid z.cells : Int))
    refine ⟨S, hS, hSdims, ?_⟩
    intro ix
    rw [hSdata ix]
    have hcast : (((nValid z.cells : Int)) : ℚ) = (nValid z.cells : ℚ) := by
      push_cast
      rfl
    rw [hcast]
    have hsub : V.sub (V.fin (nValid z.cells : ℚ))
        (V.fin (nValid z.cells : ℚ)) = V.fin 0 := by
      simp [V.sub, V.neg, V.add]
    rw [hsub]
    rcases eq_or_lt_of_le (qdevsum_nonneg z.cells
      (qsumValid z.cells / (nValid z.cells : ℚ))) with h | h
    · rw [← h]
      simp [V.div, V.sqrt, V.nonfinite]
    · have hne0 : qdevsum z.cells
          (qsumValid z.cells / (nValid z.cells : ℚ)) ≠ 0 := ne_of_gt h
      simp [V.div, hne0, h, V.sqrt, V.nonfinite]
  · intro z c hwf hne hconst hnv
    have hfin : ∀ v ∈ z.cells, v.finOrNan = true := by
      intro v hv
      rcases hconst v hv with h | h
      · cases v <;> simp_all [V.isNan, V.finOrNan]
      · subst h
        rfl
    obtain ⟨R, hR, hRdims, hRdata⟩ := corr_self hwf hne hfin hnv
    have hn0 : ((nValid z.cells : ℚ)) ≠ 0 := by exact_mod_cast hnv
    have hm : qsumValid z.cells / (nValid z.cells : ℚ) = c := by
      rw [qsumValid_const hconst]
      field_simp
    have hvar : qdevsum z.cells
        (qsumValid z.cells / (nValid z.cells : ℚ)) /
        (nValid z.cells : ℚ) = 0 := by
      rw [hm, qdevsum_const hconst, zero_div]
    refine ⟨R, hR, hRdims, fun ix => ?_⟩
    rw [hRdata ix, hvar]
    rw [sqrt_fin_sq 0 le_rfl]
    simp [V.div]

theorem wf_wZX : Wf wZX := by
  refine ⟨by decide, ?_⟩
  intro ix ix' h
  show (if ix "i" = 0 then V.fin 1 else V.fin 3) =
    (if ix' "i" = 0 then V.fin 1 else V.fin 3)
  rw [h "i" (by decide)]

theorem wf_wCX : Wf wCX := by
  exact ⟨by decide, fun _ _ _ => rfl⟩

/-- C3 witness: the three amended behaviors at concrete inputs —
all-zero weights on `[1,3]` abort with the normalization error;
`weighted_std` of `[1,3]` with `ddof` equal to the valid count returns a
non-finite cell; `weighted_corr` of the constant array `[2,2]` with
itself returns NaN. -/
theorem claim_C3_witness :
    ((weighted_mean wZX (some wZW) DimSpec.omitted).2 =
      Except.error Err.normalizationError) ∧
    (∃ S : DataArray,
      (weighted_std wZX Option.none DimSpec.omitted
        ((nValid wZX.cells : Int))).2 = Except.ok S ∧ S.dims = [] ∧
      ∀ ix, (S.data ix).nonfinite = true) ∧
    (∃ R : DataArray,
      (weighted_corr wCX wCX Option.none DimSpec.omitted).2 = Except.ok R ∧
      R.dims = [] ∧ ∀ ix, R.data ix = V.nan) := by
  have hcells : wZX.cells = [V.fin 1, V.fin 3] := by
    with_unfolding_all rfl
  have hccells : wCX.cells = [V.fin 2, V.fin 2] := by
    with_unfolding_all rfl
  refine ⟨?_, ?_, ?_⟩
  · exact claim_C3_nonfinite_behavior.1 wZX wZW wf_wZX (by decide) rfl
      (fun d _ => rfl) (fun _ => rfl)
  · exact claim_C3_nonfinite_behavior.2.1 wZX wf_wZX (by decide)
      (by rw [hcells]; decide) (by rw [hcells]; decide)
  · exact claim_C3_nonfinite_behavior.2.2 wCX 2 wf_wCX (by decide)
      (by rw [hccells]; decide) (by rw [hccells]; decide)

theorem wf_exX : Wf exX := by
  refine ⟨by decide, ?_⟩
  intro ix ix' h
  have ha := h "a" (by decide)
  have hb := h "b" (by decide)
  show exX.data ix = exX.data ix'
  simp only [exX, mkDA2]
  rw [ha, hb]

/-- C9 witness: `weighted_corr(x, x)` on the concrete `[[1,2],[3,4]]`
array returns exactly the single cell 1. -/
theorem claim_C9_witness :
    ∃ R : DataArray,
      (weighted_corr exX exX Option.none DimSpec.omitted).2 = Except.ok R ∧
      R.dims = [] ∧ R.cells = [V.fin 1] := by
  have hcells : exX.cells = [V.fin 1, V.fin 2, V.fin 3, V.fin 4] := by
    with_unfolding_all rfl
  exact claim_C9_self_corr_one exX wf_exX (by decide)
    (by rw [hcells]; decide)
    (show V.fin 1 ∈ exX.cells by rw [hcells]; decide)
    (show V.fin 2 ∈ exX.cells by rw [hcells]; decide)
    (by norm_num)

theorem getWeights_some_none_inv {x wv : DataArray} {dim : DimSpec}
    {wm : DataArray} {op : List String}
    (h : _get_weights_and_dims x Option.none (some wv) dim =
      Except.ok (wm, op)) :
    op = resolvedDims x dim ∧ wm = whereB wv x.notnull ∧
    wv.shape = dimsShape x op ∧ normChk wm op = true ∧ op ≠ [] := by
  unfold _get_weights_and_dims at h
  simp only [bind, Except.bind, pure, Except.pure, throw, throwThe,
    MonadExceptOf.throw] at h
  split at h
  · exact absurd h (by simp)
  · rename_i hne
    split at h
    · rename_i hsh
      split at h
      · rename_i hchk
        simp only [Except.ok.injEq, Prod.mk.injEq] at h
        obtain ⟨h1, h2⟩ := h
        subst h1
        subst h2
        refine ⟨rfl, rfl, hsh, hchk, ?_⟩
        intro hemp
        rw [hemp] at hne
        simp at hne
      · exact absurd h (by simp)
    · exact absurd h (by simp)

theorem map_eq_forall {α β : Type} {f g : α → β} :
    ∀ l : List α, List.map f l = List.map g l → ∀ a ∈ l, f a = g a := by
  intro l
  induction l with
  | nil => intro _ a ha; simp at ha
  | cons v t ih =>
      intro h a ha
      simp only [List.map_cons, List.cons.injEq] at h
      rcases List.mem_cons.mp ha with h' | h'
      · subst h'
        exact h.1
      · exact ih h.2 a h'

/-- C1 (amended): with weights given on the resolved dims and a dim spec
resolving to all of the array's dims (the only case the nested shape
assertion lets through — see the counterexample for partial dim specs),
`weighted_mean` returns `weighted_sum` divided cellwise by the masked
weight total over the resolved dims. -/
theorem claim_C1_mean_is_sum_div_wsum (x wv : DataArray) (dim : DimSpec)
    (hwf : Wf x) (hww : Wf wv) (hwdims : wv.dims = x.dims)
    (hwfin : ∀ ix, (x.data ix).isNan = false → ∃ q, wv.data ix = V.fin q)
    (hfull : resolvedDims x dim = x.dims)
    {wm : DataArray} {op : List String}
    (h1 : _get_weights_and_dims x Option.none (some wv) dim =
      Except.ok (wm, op)) :
    ∃ M S : DataArray,
      (weighted_mean x (some wv) dim).2 = Except.ok M ∧
      (weighted_sum x (some wv) dim).2 = Except.ok S ∧
      op = x.dims ∧ M.dims = [] ∧
      ∀ ix, M.data ix =
        V.div (S.data ix) ((sumOver op wm).data ix) := by
  obtain ⟨hop, hwm, hshp, hchk, hopne⟩ := getWeights_some_none_inv h1
  have hopx : op = x.dims := hop.trans hfull
  subst hopx
  have hne : x.dims ≠ [] := hopne
  have hwlen : ∀ d ∈ x.dims, wv.len d = x.len d := by
    have h2 := hshp
    rw [dimsShape_self] at h2
    unfold DataArray.shape at h2
    rw [hwdims] at h2
    exact map_eq_forall x.dims h2
  have hwmdims : wm.dims = x.dims := by
    rw [hwm]
    simp only [whereB, DataArray.notnull]
    rw [hwdims, filter_not_contains_self, List.append_nil]
  have hwmlen : ∀ d ∈ x.dims, wm.len d = x.len d := by
    intro d hd
    rw [hwm]
    simp only [whereB]
    rw [if_pos (contains_of_mem (hwdims ▸ hd : d ∈ wv.dims))]
    exact hwlen d hd
  have hwmdata : ∀ ix, wm.data ix = if (x.data ix).isNan then V.nan else
      V.fin (match wv.data ix with | V.fin q => q | _ => 0) := by
    intro ix
    rw [hwm]
    simp only [whereB, DataArray.notnull]
    by_cases h : (x.data ix).isNan
    · simp [h]
    · obtain ⟨q, hq⟩ := hwfin ix (by simpa using h)
      simp [h, hq]
  have hwmdep : DepOn wm.data x.dims := by
    intro ix ix' ha
    rw [hwm]
    simp only [whereB, DataArray.notnull]
    simp only [hwf.dep ix ix' ha,
      hww.dep ix ix' (fun d hd => ha d (hwdims ▸ hd))]
  have n : NiceW x wm
      (fun ix => match wv.data ix with | V.fin q => q | _ => 0) :=
    ⟨hwf, hne, hwmdims, hwmlen, hwmdata, hwmdep⟩
  set A := map2 V.mul x wm with hA
  have hAdims : A.dims = x.dims := by
    rw [hA]
    simp only [map2]
    rw [hwmdims, filter_not_contains_self, List.append_nil]
  have hAlen : ∀ d ∈ x.dims, A.len d = x.len d := by
    intro d hd
    rw [hA]
    simp only [map2]
    rw [if_pos (contains_of_mem hd)]
  have hAdep : DepOn A.data A.dims := by
    rw [hAdims]
    exact depOn_comb2 V.mul hwf.dep hwmdep
  obtain ⟨S2, hS2, hS2dims, hS2a, hS2e, hS2data⟩ := sum_w n hchk
  refine ⟨update_attrs (map2 V.div S2 (sumOver x.dims wm))
      (get_original_attrs x),
    update_attrs (sumOver x.dims A) (get_original_attrs x),
    ?_, ?_, rfl, ?_, ?_⟩
  · unfold weighted_mean
    simp only [bind, Except.bind, pure, Except.pure]
    rw [h1]
    simp only []
    rw [hS2]
  · unfold weighted_sum
    simp only [bind, Except.bind, pure, Except.pure]
    rw [h1]
  · show (map2 V.div S2 (sumOver x.dims wm)).dims = []
    simp only [map2]
    rw [hS2dims, sumOver_full_dims hwmdims.symm]
    rfl
  · intro ix
    show V.div (S2.data ix) ((sumOver x.dims wm).data ix) =
      V.div ((sumOver x.dims A).data ix) ((sumOver x.dims wm).data ix)
    congr 1
    rw [hS2data ix, sumOver_full_data hAdims.symm (hAdims ▸ hAdep) ix]
    rw [cells_grid hAdims hAlen]
    rfl

/-- C1 counterexample: with the perfectly valid weights `[1,1]` on the
reduction dim `"a"` of `x = [[1,2],[3,4]]`, `weighted_sum` succeeds
(cells `[4, 6]` over `"b"`), but `weighted_mean` — which the claim says
equals that sum divided by the weight total — raises the nested shape
assertion instead of returning anything: the claimed identity fails for
every partial dim spec. -/
theorem claim_C1_counterexample :
    (weighted_mean exX (some exWa) (DimSpec.str "a")).2 =
      Except.error Err.shapeMismatch ∧
    resCells (weighted_sum exX (some exWa) (DimSpec.str "a")).2 =
      some (["b"], [V.fin 4, V.fin 6]) :=
  ⟨by with_unfolding_all rfl, by with_unfolding_all rfl⟩

theorem wf_wOnes2 : Wf wOnes2 :=
  ⟨by decide, fun _ _ _ => rfl⟩

/-- C1 witness: the amended identity at the concrete full reduction of
`[[1,2],[3,4]]` with uniform supplied weights. -/
theorem claim_C1_witness :
    ∃ M S : DataArray,
      (weighted_mean exX (some wOnes2) DimSpec.omitted).2 = Except.ok M ∧
      (weighted_sum exX (some wOnes2) DimSpec.omitted).2 = Except.ok S ∧
      ["a", "b"] = exX.dims ∧ M.dims = [] ∧
      ∀ ix, M.data ix = V.div (S.data ix)
        ((sumOver ["a", "b"] (whereB wOnes2 exX.notnull)).data ix) := by
  have h1 : _get_weights_and_dims exX Option.none (some wOnes2)
      DimSpec.omitted =
      Except.ok (whereB wOnes2 exX.notnull, ["a", "b"]) := by
    with_unfolding_all rfl
  exact claim_C1_mean_is_sum_div_wsum exX wOnes2 DimSpec.omitted wf_exX
    wf_wOnes2 (by decide) (fun ix _ => ⟨1, rfl⟩) (by with_unfolding_all rfl)
    h1

/-! ## One-dimensional evaluation toolkit for the masking claim -/

theorem getD_len_le {α : Type} : ∀ (l : List α) (i : Nat) (d : α),
    l.length ≤ i → l.getD i d = d
  | [], _, _, _ => rfl
  | _ :: t, i + 1, d, h => getD_len_le t i d (by simpa using h)
  | _ :: _, 0, _, h => absurd h (by simp)

theorem finL_getD : ∀ (ws : List ℚ) (i : Nat), i < ws.length →
    (finL ws).getD i V.nan = V.fin (ws.getD i 0)
  | [], i, h => absurd h (by simp)
  | _ :: _, 0, _ => rfl
  | _ :: t, i + 1, h => finL_getD t i (by simpa using h)

theorem flatten_map_singleton {α β : Type} (g : α → β) (l : List α) :
    (l.map (fun x => [g x])).flatten = l.map g := by
  induction l with
  | nil => rfl
  | cons a t ih => simp [ih]

theorem wf_mkDA1 (nm : String) (l : List V) : Wf (mkDA1 nm l) := by
  refine ⟨?_, ?_⟩
  · show (["i"] : List String).Nodup
    decide
  intro ix ix' h
  have hi := h "i" (by show "i" ∈ (["i"] : List String); decide)
  show (mkDA1 nm l).data ix = (mkDA1 nm l).data ix'
  simp only [mkDA1]
  rw [hi]

theorem grid_mkDA1 (nm : String) (l : List V) :
    (mkDA1 nm l).grid =
      (List.range l.length).map (fun i => updIx (fun _ => 0) "i" i) := by
  have haxes : (mkDA1 nm l).axes = [("i", l.length)] := by
    simp [DataArray.axes, mkDA1]
  unfold DataArray.grid
  rw [haxes]
  simp only [allIdx]
  exact flatten_map_singleton _ _

theorem wsumValid_nil_r (l : List V) : wsumValid l [] = 0 := by
  cases l <;> rfl

theorem wsumValid_cons2 (v : V) (t : List V) (w : ℚ) (tw : List ℚ) :
    wsumValid (v :: t) (w :: tw) =
      (if v.isNan then 0 else w) + wsumValid t tw := rfl

theorem xwsumValid_nil_r (l : List V) : xwsumValid l [] = 0 := by
  cases l <;> rfl

theorem xwsumValid_cons2 (v : V) (t : List V) (w : ℚ) (tw : List ℚ) :
    xwsumValid (v :: t) (w :: tw) =
      (match v with | .fin q => q * w | _ => 0) + xwsumValid t tw := rfl

theorem nansum_range_wsum (mc : List V) : ∀ ws : List ℚ,
    nansumL ((List.range mc.length).map (fun i =>
      if (mc.getD i V.nan).isNan then V.nan else V.fin (ws.getD i 0))) =
      V.fin (wsumValid mc ws) := by
  induction mc with
  | nil => intro ws; cases ws <;> rfl
  | cons v t ih =>
      intro ws
      rw [List.length_cons, List.range_succ_eq_map, List.map_cons,
        List.map_map]
      rw [nansum_cons]
      have htail : ((List.range t.length).map
          ((fun i => if ((v :: t).getD i V.nan).isNan then V.nan
            else V.fin (ws.getD i 0)) ∘ Nat.succ)) =
          (List.range t.length).map (fun i =>
            if (t.getD i V.nan).isNan then V.nan
            else V.fin ((ws.drop 1).getD i 0)) := by
        apply List.map_congr_left
        intro i _
        show (if ((v :: t).getD (i + 1) V.nan).isNan then V.nan
          else V.fin (ws.getD (i + 1) 0)) = _
        cases ws <;> rfl
      rw [htail, ih (ws.drop 1)]
      cases ws with
      | nil =>
          show V.add (V.denan (if (v.isNan) then V.nan else V.fin 0))
            (V.fin (wsumValid t [])) = V.fin (wsumValid (v :: t) [])
          rw [wsumValid_nil_r, wsumValid_nil_r]
          by_cases hv : v.isNan <;> simp [hv, V.denan, V.add]
      | cons w tw =>
          rw [wsumValid_cons2]
          show V.add (V.denan (if (v.isNan) then V.nan else V.fin w))
            (V.fin (wsumValid t tw)) = _
          by_cases hv : v.isNan <;> simp [hv, V.denan, V.add]

theorem nansum_range_xwsum (mc : List V)
    (hfin : ∀ v ∈ mc, v.finOrNan = true) : ∀ ws : List ℚ,
    nansumL ((List.range mc.length).map (fun i =>
      V.mul (mc.getD i V.nan)
        (if (mc.getD i V.nan).isNan then V.nan
          else V.fin (ws.getD i 0)))) =
      V.fin (xwsumValid mc ws) := by
  induction mc with
  | nil => intro ws; cases ws <;> rfl
  | cons v t ih =>
      intro ws
      rw [List.length_cons, List.range_succ_eq_map, List.map_cons,
        List.map_map]
      rw [nansum_cons]
      have htail : ((List.range t.length).map
          ((fun i => V.mul ((v :: t).getD i V.nan)
            (if ((v :: t).getD i V.nan).isNan then V.nan
              else V.fin (ws.getD i 0))) ∘ Nat.succ)) =
          (List.range t.length).map (fun i =>
            V.mul (t.getD i V.nan)
              (if (t.getD i V.nan).isNan then V.nan
                else V.fin ((ws.drop 1).getD i 0))) := by
        apply List.map_congr_left
        intro i _
        show V.mul ((v :: t).getD (i + 1) V.nan)
          (if ((v :: t).getD (i + 1) V.nan).isNan then V.nan
            else V.fin (ws.getD (i + 1) 0)) = _
        cases ws <;> rfl
      rw [htail, ih (fun u hu => hfin u (List.mem_cons_of_mem v hu))
        (ws.drop 1)]
      have hv := hfin v (List.mem_cons_self v t)
      cases ws with
      | nil =>
          show V.add (V.denan (V.mul v (if (v.isNan) then V.nan
            else V.fin 0))) (V.fin (xwsumValid t [])) =
            V.fin (xwsumValid (v :: t) [])
          rw [xwsumValid_nil_r, xwsumValid_nil_r]
          rcases v with q | _ | _ | _ | _
          · simp [V.isNan, V.mul, V.denan, V.add]
          · simp [V.finOrNan] at hv
          · simp [V.finOrNan] at hv
          · simp [V.isNan, V.mul, V.denan, V.add]
          · simp [V.finOrNan] at hv
      | cons w tw =>
          rw [xwsumValid_cons2]
          show V.add (V.denan (V.mul v (if (v.isNan) then V.nan
            else V.fin w))) (V.fin (xwsumValid t tw)) = _
          rcases v with q | _ | _ | _ | _
          · simp [V.isNan, V.mul, V.denan, V.add]
          · simp [V.finOrNan] at hv
          · simp [V.finOrNan] at hv
          · simp [V.isNan, V.mul, V.denan, V.add]
          · simp [V.finOrNan] at hv

theorem nansum_range_wdiv (mc : List V) (c : ℚ) (hc : c ≠ 0) :
    ∀ ws : List ℚ,
    nansumL ((List.range mc.length).map (fun i =>
      V.div (if (mc.getD i V.nan).isNan then V.nan
        else V.fin (ws.getD i 0)) (V.fin c))) =
      V.fin (wsumValid mc ws / c) := by
  induction mc with
  | nil =>
      intro ws
      cases ws <;>
        show V.fin 0 = V.fin (0 / c) <;> rw [zero_div]
  | cons v t ih =>
      intro ws
      rw [List.length_cons, List.range_succ_eq_map, List.map_cons,
        List.map_map]
      rw [nansum_cons]
      have htail : ((List.range t.length).map
          ((fun i => V.div (if ((v :: t).getD i V.nan).isNan then V.nan
            else V.fin (ws.getD i 0)) (V.fin c)) ∘ Nat.succ)) =
          (List.range t.length).map (fun i =>
            V.div (if (t.getD i V.nan).isNan then V.nan
              else V.fin ((ws.drop 1).getD i 0)) (V.fin c)) := by
        apply List.map_congr_left
        intro i _
        show V.div (if ((v :: t).getD (i + 1) V.nan).isNan then V.nan
          else V.fin (ws.getD (i + 1) 0)) (V.fin c) = _
        cases ws <;> rfl
      rw [htail, ih (ws.drop 1)]
      cases ws with
      | nil =>
          show V.add (V.denan (V.div (if (v.isNan) then V.nan
            else V.fin 0) (V.fin c))) (V.fin (wsumValid t [] / c)) =
            V.fin (wsumValid (v :: t) [] / c)
          rw [wsumValid_nil_r, wsumValid_nil_r]
          by_cases hv : v.isNan <;> simp [hv, V.div, V.denan, V.add, hc]
      | cons w tw =>
          rw [wsumValid_cons2]
          show V.add (V.denan (V.div (if (v.isNan) then V.nan
            else V.fin w) (V.fin c))) (V.fin (wsumValid t tw / c)) =
            V.fin (((if (v.isNan) then 0 else w) + wsumValid t tw) / c)
          by_cases hv : v.isNan <;>
            simp [hv, V.div, V.denan, V.add, hc, add_div]

theorem niceW_whereB {z wv : DataArray} {wq : Ix → ℚ} (hwf : Wf z)
    (hne : z.dims ≠ []) (hdims : wv.dims = z.dims)
    (hlens : ∀ d ∈ z.dims, wv.len d = z.len d)
    (hwdata : ∀ ix, (z.data ix).isNan = false → wv.data ix = V.fin (wq ix))
    (hwdep : DepOn wv.data z.dims) :
    NiceW z (whereB wv z.notnull) wq := by
  have ndata2 : ∀ ix, (whereB wv z.notnull).data ix =
      if (z.data ix).isNan then V.nan else wv.data ix := by
    intro ix
    show (if (z.notnull.data ix) then wv.data ix else V.nan) = _
    by_cases h : (z.data ix).isNan
    · simp [DataArray.notnull, h]
    · simp [DataArray.notnull, h]
  refine ⟨hwf, hne, ?_, ?_, ?_, ?_⟩
  · show wv.dims ++ z.notnull.dims.filter
      (fun d => ¬ wv.dims.contains d) = z.dims
    show wv.dims ++ z.dims.filter (fun d => ¬ wv.dims.contains d) = z.dims
    rw [hdims, filter_not_contains_self, List.append_nil]
  · intro d hd
    show (if wv.dims.contains d then wv.len d else z.notnull.len d) = z.len d
    rw [hdims, if_pos (contains_of_mem hd)]
    exact hlens d hd
  · intro ix
    rw [ndata2 ix]
    by_cases h : (z.data ix).isNan
    · rw [if_pos h, if_pos h]
    · rw [if_neg h, if_neg h]
      exact hwdata ix (by simpa using h)
  · apply depOn_congr (fun ix => (ndata2 ix).symm)
    intro ix ix' ha
    show (if (z.data ix).isNan then V.nan else wv.data ix) =
      if (z.data ix').isNan then V.nan else wv.data ix'
    simp only [hwf.dep ix ix' ha, hwdep ix ix' ha]

theorem res_w_fin {z wv : DataArray} (hne : z.dims ≠ [])
    (hdims : wv.dims = z.dims)
    (hlens : ∀ d ∈ z.dims, wv.len d = z.len d)
    {dim : DimSpec} (hrd : resolvedDims z dim = z.dims)
    (hchk : normChk (whereB wv z.notnull) z.dims = true) :
    _get_weights_and_dims z Option.none (some wv) dim =
      Except.ok (whereB wv z.notnull, z.dims) := by
  have hne' : ¬ (z.dims.isEmpty = true) := by
    simpa using hne
  have hsh : wv.shape = dimsShape z z.dims := by
    rw [dimsShape_self]
    show wv.dims.map wv.len = z.dims.map z.len
    rw [hdims]
    exact List.map_congr_left hlens
  unfold _get_weights_and_dims
  simp only [bind, Except.bind, pure, Except.pure, throw, throwThe,
    MonadExceptOf.throw]
  rw [hrd]
  rw [if_neg hne', if_pos hsh, if_pos hchk]

theorem mean_fin {z wv : DataArray} {wq : Ix → ℚ}
    (n : NiceW z (whereB wv z.notnull) wq)
    (hdims : wv.dims = z.dims)
    (hlens : ∀ d ∈ z.dims, wv.len d = z.len d)
    {dim : DimSpec} (hrd : resolvedDims z dim = z.dims)
    (hchk : normChk (whereB wv z.notnull) z.dims = true) :
    ∃ M : DataArray,
      (weighted_mean z (some wv) dim).2 = Except.ok M ∧ M.dims = [] ∧
      ∀ ix, M.data ix = V.div
        (nansumL (z.grid.map (fun jx =>
          V.mul (z.data jx) ((whereB wv z.notnull).data jx))))
        (nansumL (z.grid.map (whereB wv z.notnull).data)) := by
  have hres := res_w_fin n.ne hdims hlens hrd hchk
  obtain ⟨S, hS, hSdims, _, _, hSdata⟩ := sum_w n hchk
  have hden_dims : (sumOver z.dims (whereB wv z.notnull)).dims = [] :=
    sumOver_full_dims n.dims.symm
  have hden_data : ∀ ix, (sumOver z.dims (whereB wv z.notnull)).data ix =
      nansumL (z.grid.map (whereB wv z.notnull).data) := by
    intro ix
    rw [sumOver_full_data n.dims.symm (n.dims ▸ n.wdep) ix, niceW_cells n]
  refine ⟨update_attrs (map2 V.div S (sumOver z.dims (whereB wv z.notnull)))
    (get_original_attrs z), ?_, ?_, ?_⟩
  · unfold weighted_mean
    simp only [bind, Except.bind, pure, Except.pure]
    rw [hres]
    simp only []
    rw [hS]
  · show (map2 V.div S (sumOver z.dims (whereB wv z.notnull))).dims = []
    simp only [map2]
    rw [hSdims, hden_dims]
    rfl
  · intro ix
    show V.div (S.data ix)
      ((sumOver z.dims (whereB wv z.notnull)).data ix) = _
    rw [hSdata ix, hden_data ix]

theorem mean_1d (nmx nmw : String) (mc : List V) (ws : List ℚ)
    (hfin : ∀ v ∈ mc, v.finOrNan = true)
    (hlen : ws.length = mc.length)
    (hwz : wsumValid mc ws ≠ 0) :
    ∃ M : DataArray,
      (weighted_mean (mkDA1 nmx mc) (some (mkDA1 nmw (finL ws)))
        DimSpec.omitted).2 = Except.ok M ∧ M.dims = [] ∧
      ∀ ix, M.data ix = V.fin (xwsumValid mc ws / wsumValid mc ws) := by
  set z := mkDA1 nmx mc with hz
  set wv := mkDA1 nmw (finL ws) with hwv
  have hzdims : z.dims = ["i"] := rfl
  have hne : z.dims ≠ [] := by rw [hzdims]; simp
  have hdims : wv.dims = z.dims := rfl
  have hlens : ∀ d ∈ z.dims, wv.len d = z.len d := by
    intro d hd
    have hdi : d = "i" := by
      rw [hzdims] at hd
      simpa using hd
    subst hdi
    show (finL ws).length = mc.length
    rw [finL, List.length_map]
    exact hlen
  have hwdata : ∀ ix, (z.data ix).isNan = false →
      wv.data ix = V.fin (ws.getD (ix "i") 0) := by
    intro ix h
    by_cases hi : ix "i" < mc.length
    · show (finL ws).getD (ix "i") V.nan = V.fin (ws.getD (ix "i") 0)
      exact finL_getD ws (ix "i") (hlen ▸ hi)
    · exfalso
      have : z.data ix = V.nan := by
        show mc.getD (ix "i") V.nan = V.nan
        exact getD_len_le mc (ix "i") V.nan (Nat.le_of_not_lt hi)
      rw [this] at h
      simp [V.isNan] at h
  have hwdep : DepOn wv.data z.dims := by
    intro ix jx ha
    have hi := ha "i" (by rw [hzdims]; simp)
    show (finL ws).getD (ix "i") V.nan = (finL ws).getD (jx "i") V.nan
    rw [hi]
  have n := niceW_whereB (wf_mkDA1 nmx mc) hne hdims hlens hwdata hwdep
  set wm := whereB wv z.notnull with hwm
  have hterm : ∀ i ∈ List.range mc.length,
      wm.data (updIx (fun _ => 0) "i" i) =
        if (mc.getD i V.nan).isNan then V.nan
          else V.fin (ws.getD i 0) := by
    intro i hi
    have hi' : i < mc.length := List.mem_range.mp hi
    have hix : (updIx (fun _ => 0) "i" i) "i" = i := rfl
    have hzd : z.data (updIx (fun _ => 0) "i" i) = mc.getD i V.nan := by
      show mc.getD ((updIx (fun _ => 0) "i" i) "i") V.nan = mc.getD i V.nan
      rw [hix]
    rw [n.data (updIx (fun _ => 0) "i" i), hzd]
    by_cases h : (mc.getD i V.nan).isNan
    · rw [if_pos h, if_pos h]
    · rw [if_neg h, if_neg h]
      rw [hix]
  have hgrid : z.grid =
      (List.range mc.length).map (fun i => updIx (fun _ => 0) "i" i) :=
    grid_mkDA1 nmx mc
  have hgw : z.grid.map wm.data = (List.range mc.length).map (fun i =>
      if (mc.getD i V.nan).isNan then V.nan else V.fin (ws.getD i 0)) := by
    rw [hgrid, List.map_map]
    apply List.map_congr_left
    intro i hi
    show wm.data (updIx (fun _ => 0) "i" i) = _
    exact hterm i hi
  have hsw : nansumL (z.grid.map wm.data) = V.fin (wsumValid mc ws) := by
    rw [hgw]
    exact nansum_range_wsum mc ws
  have hgxw : z.grid.map (fun jx => V.mul (z.data jx) (wm.data jx)) =
      (List.range mc.length).map (fun i =>
        V.mul (mc.getD i V.nan)
          (if (mc.getD i V.nan).isNan then V.nan
            else V.fin (ws.getD i 0))) := by
    rw [hgrid, List.map_map]
    apply List.map_congr_left
    intro i hi
    show V.mul (z.data (updIx (fun _ => 0) "i" i))
      (wm.data (updIx (fun _ => 0) "i" i)) = _
    have hzd : z.data (updIx (fun _ => 0) "i" i) = mc.getD i V.nan := rfl
    rw [hzd, hterm i hi]
  have hsxw : nansumL (z.grid.map (fun jx =>
      V.mul (z.data jx) (wm.data jx))) = V.fin (xwsumValid mc ws) := by
    rw [hgxw]
    exact nansum_range_xwsum mc hfin ws
  have h1 : nansumL (z.grid.map (fun jx =>
      V.div (wm.data jx) (V.fin (wsumValid mc ws)))) = V.fin 1 := by
    have hgd : z.grid.map (fun jx =>
        V.div (wm.data jx) (V.fin (wsumValid mc ws))) =
        (List.range mc.length).map (fun i =>
          V.div (if (mc.getD i V.nan).isNan then V.nan
            else V.fin (ws.getD i 0)) (V.fin (wsumValid mc ws))) := by
      rw [hgrid, List.map_map]
      apply List.map_congr_left
      intro i hi
      show V.div (wm.data (updIx (fun _ => 0) "i" i))
        (V.fin (wsumValid mc ws)) = _
      rw [hterm i hi]
    rw [hgd, nansum_range_wdiv mc (wsumValid mc ws) hwz ws,
      div_self hwz]
  have hchk : normChk wm z.dims = true := normChk_nice n hsw h1
  obtain ⟨M, hM, hMdims, hMdata⟩ :=
    mean_fin n hdims hlens (resolvedDims_omitted z) hchk
  refine ⟨M, hM, hMdims, ?_⟩
  intro ix
  rw [hMdata ix, hsxw, hsw]
  simp [V.div, hwz]

theorem maskedCells_length (xs : List ℚ) (mask : List Bool)
    (h : mask.length = xs.length) :
    (maskedCells xs mask).length = xs.length := by
  rw [maskedCells, List.length_zipWith, h, Nat.min_self]

theorem maskedCells_finOrNan : ∀ (xs : List ℚ) (mask : List Bool),
    ∀ v ∈ maskedCells xs mask, v.finOrNan = true := by
  intro xs
  induction xs with
  | nil =>
      intro mask v hv
      simp [maskedCells] at hv
  | cons x t ih =>
      intro mask v hv
      cases mask with
      | nil => simp [maskedCells] at hv
      | cons b tb =>
          rw [maskedCells, List.zipWith_cons_cons] at hv
          rcases List.mem_cons.mp hv with h | h
          · subst h
            cases b <;> rfl
          · exact ih tb v h

theorem finL_finOrNan (xs : List ℚ) : ∀ v ∈ finL xs, v.finOrNan = true := by
  intro v hv
  rw [finL] at hv
  obtain ⟨q, _, rfl⟩ := List.mem_map.mp hv
  rfl

theorem dropMasked_length_eq {α β : Type} :
    ∀ (l1 : List α) (l2 : List β) (mask : List Bool),
    l1.length = l2.length →
    (dropMasked l1 mask).length = (dropMasked l2 mask).length := by
  intro l1
  induction l1 with
  | nil =>
      intro l2 mask h
      have : l2 = [] := List.length_eq_zero.mp h.symm
      subst this
      rfl
  | cons a t ih =>
      intro l2 mask h
      cases l2 with
      | nil => simp at h
      | cons b t2 =>
          cases mask with
          | nil => rfl
          | cons m tm =>
              have h' : t.length = t2.length := by simpa using h
              show (if m then dropMasked t tm
                else a :: dropMasked t tm).length =
                (if m then dropMasked t2 tm
                  else b :: dropMasked t2 tm).length
              cases m with
              | true => simpa using ih t2 tm h'
              | false => simpa using ih t2 tm h'

theorem wsum_mask_drop : ∀ (xs ws : List ℚ) (mask : List Bool),
    ws.length = xs.length → mask.length = xs.length →
    wsumValid (maskedCells xs mask) ws =
      wsumValid (finL (dropMasked xs mask)) (dropMasked ws mask) := by
  intro xs
  induction xs with
  | nil =>
      intro ws mask h1 h2
      have hws : ws = [] := List.length_eq_zero.mp h1
      have hm : mask = [] := List.length_eq_zero.mp h2
      subst hws; subst hm
      rfl
  | cons x t ih =>
      intro ws mask h1 h2
      cases ws with
      | nil => simp at h1
      | cons w tw =>
          cases mask with
          | nil => simp at h2
          | cons b tb =>
              have h1' : tw.length = t.length := by simpa using h1
              have h2' : tb.length = t.length := by simpa using h2
              rw [maskedCells, List.zipWith_cons_cons]
              cases b with
              | true =>
                  show wsumValid (V.nan :: List.zipWith _ t tb) (w :: tw) = _
                  rw [wsumValid_cons2]
                  show (if (V.nan).isNan then 0 else w) +
                    wsumValid (maskedCells t tb) tw =
                    wsumValid (finL (dropMasked t tb)) (dropMasked tw tb)
                  rw [ih tw tb h1' h2']
                  simp [V.isNan]
              | false =>
                  show wsumValid (V.fin x :: List.zipWith _ t tb)
                    (w :: tw) = _
                  rw [wsumValid_cons2]
                  show (if (V.fin x).isNan then 0 else w) +
                    wsumValid (maskedCells t tb) tw =
                    wsumValid (finL (x :: dropMasked t tb))
                      (w :: dropMasked tw tb)
                  rw [ih tw tb h1' h2']
                  show _ = wsumValid (V.fin x :: finL (dropMasked t tb))
                    (w :: dropMasked tw tb)
                  rw [wsumValid_cons2]

theorem xwsum_mask_drop : ∀ (xs ws : List ℚ) (mask : List Bool),
    ws.length = xs.length → mask.length = xs.length →
    xwsumValid (maskedCells xs mask) ws =
      xwsumValid (finL (dropMasked xs mask)) (dropMasked ws mask) := by
  intro xs
  induction xs with
  | nil =>
      intro ws mask h1 h2
      have hws : ws = [] := List.length_eq_zero.mp h1
      have hm : mask = [] := List.length_eq_zero.mp h2
      subst hws; subst hm
      rfl
  | cons x t ih =>
      intro ws mask h1 h2
      cases ws with
      | nil => simp at h1
      | cons w tw =>
          cases mask with
          | nil => simp at h2
          | cons b tb =>
              have h1' : tw.length = t.length := by simpa using h1
              have h2' : tb.length = t.length := by simpa using h2
              rw [maskedCells, List.zipWith_cons_cons]
              cases b with
              | true =>
                  show xwsumValid (V.nan :: List.zipWith _ t tb)
                    (w :: tw) = _
                  rw [xwsumValid_cons2]
                  show (0 : ℚ) + xwsumValid (maskedCells t tb) tw =
                    xwsumValid (finL (dropMasked t tb)) (dropMasked tw tb)
                  rw [ih tw tb h1' h2']
                  simp
              | false =>
                  show xwsumValid (V.fin x :: List.zipWith _ t tb)
                    (w :: tw) = _
                  rw [xwsumValid_cons2]
                  show x * w + xwsumValid (maskedCells t tb) tw =
                    xwsumValid (finL (x :: dropMasked t tb))
                      (w :: dropMasked tw tb)
                  rw [ih tw tb h1' h2']
                  show _ = xwsumValid (V.fin x :: finL (dropMasked t tb))
                    (w :: dropMasked tw tb)
                  rw [xwsumValid_cons2]

/-- C8: missing-value masking is equivalent to explicit exclusion.  For a
one-dimensional array: write the data with the positions flagged by
`mask` set to the missing sentinel and call `weighted_mean` with the full
weight list, or instead delete those positions from both the data and the
weights beforehand and call `weighted_mean` on the reduced pair — both
calls succeed and return the same scalar, namely the weighted sum of the
surviving values divided by the weight total of the surviving positions
(whenever that total is nonzero, which the normalization assertion
requires anyway). -/
theorem claim_C8_mask_equals_exclusion (xs ws : List ℚ) (mask : List Bool)
    (hlw : ws.length = xs.length) (hlm : mask.length = xs.length)
    (hwz : wsumValid (maskedCells xs mask) ws ≠ 0) :
    ∃ M1 M2 : DataArray,
      (weighted_mean (mkDA1 "x" (maskedCells xs mask))
        (some (mkDA1 "w" (finL ws))) DimSpec.omitted).2 = Except.ok M1 ∧
      (weighted_mean (mkDA1 "x" (finL (dropMasked xs mask)))
        (some (mkDA1 "w" (finL (dropMasked ws mask))))
        DimSpec.omitted).2 = Except.ok M2 ∧
      M1.dims = [] ∧ M2.dims = [] ∧
      (∀ ix, M1.data ix =
        V.fin (xwsumValid (maskedCells xs mask) ws /
          wsumValid (maskedCells xs mask) ws)) ∧
      (∀ ix, M2.data ix = M1.data ix) := by
  have hlenA : ws.length = (maskedCells xs mask).length := by
    rw [maskedCells_length xs mask hlm]
    exact hlw
  obtain ⟨M1, h1, h1d, h1v⟩ := mean_1d "x" "w" (maskedCells xs mask) ws
    (maskedCells_finOrNan xs mask) hlenA hwz
  have hklen : (dropMasked ws mask).length =
      (finL (dropMasked xs mask)).length := by
    rw [finL, List.length_map]
    exact dropMasked_length_eq ws xs mask hlw
  have hwzB : wsumValid (finL (dropMasked xs mask))
      (dropMasked ws mask) ≠ 0 := by
    rw [← wsum_mask_drop xs ws mask hlw hlm]
    exact hwz
  obtain ⟨M2, h2, h2d, h2v⟩ := mean_1d "x" "w"
    (finL (dropMasked xs mask)) (dropMasked ws mask)
    (finL_finOrNan _) hklen hwzB
  refine ⟨M1, M2, h1, h2, h1d, h2d, h1v, ?_⟩
  intro ix
  rw [h2v ix, h1v ix, ← wsum_mask_drop xs ws mask hlw hlm,
    ← xwsum_mask_drop xs ws mask hlw hlm]

/-- C8 witness: data `[1, 2, 3]`, weights `[2, 1, 1]`, middle position
masked.  Masking and exclusion both return the single scalar `5/3`. -/
theorem claim_C8_witness :
    ∃ M1 M2 : DataArray,
      (weighted_mean
        (mkDA1 "x" (maskedCells [1, 2, 3] [false, true, false]))
        (some (mkDA1 "w" (finL [2, 1, 1]))) DimSpec.omitted).2 =
        Except.ok M1 ∧
      (weighted_mean
        (mkDA1 "x" (finL (dropMasked [1, 2, 3] [false, true, false])))
        (some (mkDA1 "w" (finL (dropMasked [2, 1, 1]
          [false, true, false])))) DimSpec.omitted).2 = Except.ok M2 ∧
      M1.dims = [] ∧ M2.dims = [] ∧
      (∀ ix, M1.data ix =
        V.fin (xwsumValid (maskedCells [1, 2, 3] [false, true, false])
          [2, 1, 1] /
          wsumValid (maskedCells [1, 2, 3] [false, true, false])
            [2, 1, 1])) ∧
      (∀ ix, M2.data ix = M1.data ix) := by
  apply claim_C8_mask_equals_exclusion [1, 2, 3] [2, 1, 1]
    [false, true, false] (by decide) (by decide)
  have h : wsumValid (maskedCells [1, 2, 3] [false, true, false])
      [2, 1, 1] = 3 := by with_unfolding_all rfl
  rw [h]
  norm_num

/-- C9 counterexample: on `x = [1, 2, +inf]` every cell is valid under
`notnull` and the array has two distinct valid values, yet
`weighted_corr(x, x)` succeeds and returns the single cell NaN, not 1:
the mean is `+inf`, the deviations are `[-inf, -inf, NaN]`, the
self-covariance is `+inf`, and `inf / sqrt(inf * inf)` is NaN.  The
original claim is false for arrays with infinite cells. -/
theorem claim_C9_counterexample :
    resCells (weighted_corr exIX exIX Option.none DimSpec.omitted).2 =
      some ([], [V.nan]) := by
  with_unfolding_all rfl
